import Mathlib

/-!
# Verification of the pyslam stereo RANSAC front-end

Shallow embedding of `pyslam/sensors/stereo_camera.py` and
`pyslam/pipelines/ransac.py`.

Modelling conventions:
* IEEE-754 `float64` scalars are modelled by an arbitrary linear ordered
  field `F` (instantiated at `ℝ` in all claim theorems); this keeps every
  definition computable while matching exact real arithmetic.
* The NaN sentinel used by the code for invalid measurements is modelled by
  `Option F` (`none` = NaN).  Arithmetic on `Option F` propagates `none`
  exactly the way IEEE arithmetic propagates NaN, and any order comparison
  against `none` is `false`, as for NaN.  Division by zero is modelled as
  `none`; IEEE-754 would give `±inf` there, a case none of the verified
  statements depends on (the corresponding theorems carry a nonzero-divisor
  hypothesis or are independent of the value).
* `np.linalg.svd` is a numerical library routine; `compute_transform_fast`
  is therefore embedded as a function of the SVD factors `U`, `σ`, `Vh`,
  with the defining properties of an SVD (`IsSVD`) quantified in theorems.
* `np.random.randint` is modelled by passing the drawn index table
  `rand_ids` as an explicit argument to `perform_ransac`.
-/

namespace PySlam

open Matrix

variable {F : Type} [LinearOrderedField F]

/-! ## NaN-extended scalars (`none` models the IEEE NaN sentinel) -/

/-- A `float64` value that may be NaN: `none` models NaN. -/
abbrev FNum (F : Type) := Option F

/-- IEEE-style addition: NaN propagates. -/
def FNum.add : FNum F → FNum F → FNum F
  | some a, some b => some (a + b)
  | _, _ => none

/-- IEEE-style subtraction: NaN propagates. -/
def FNum.sub : FNum F → FNum F → FNum F
  | some a, some b => some (a - b)
  | _, _ => none

/-- IEEE-style multiplication: NaN propagates. -/
def FNum.mul : FNum F → FNum F → FNum F
  | some a, some b => some (a * b)
  | _, _ => none

/-- IEEE-style division: NaN propagates.  Division by zero is modelled as
NaN (IEEE would produce `±inf`; no verified statement depends on that case). -/
def FNum.div : FNum F → FNum F → FNum F
  | some a, some b => if b = 0 then none else some (a / b)
  | _, _ => none

/-- IEEE-style strict comparison against a (non-NaN) threshold:
any comparison involving NaN is `false`. -/
def FNum.lt : FNum F → F → Bool
  | some a, t => decide (a < t)
  | none, _ => false

/-! ## `StereoCamera` (stereo_camera.py) -/

/-- `StereoCamera.__init__`: pinhole stereo camera intrinsics, origin in the
left camera.  `w`/`h` are stored as integers by the constructor. -/
structure StereoCamera (F : Type) where
  cu : F
  cv : F
  fu : F
  fv : F
  b : F
  w : ℤ
  h : ℤ

/-- `StereoCamera.is_valid_measurement` on a single `(u, v, d)` row:
`(u > 0) & (u < w) & (v > 0) & (v < h) & (d > 0)`. -/
def isValidMeasurement (c : StereoCamera F) (uvd : Fin 3 → F) : Bool :=
  (decide (uvd 0 > 0) && decide (uvd 0 < (c.w : F))) &&
    (decide (uvd 1 > 0) && decide (uvd 1 < (c.h : F))) &&
    decide (uvd 2 > 0)

/-- `StereoCamera.is_valid_measurement` on a batch: per-element application. -/
def isValidMeasurementBatch (c : StereoCamera F) (uvd : List (Fin 3 → F)) :
    List Bool :=
  uvd.map (isValidMeasurement c)

/-- The arithmetic core of `StereoCamera.project`:
`one_over_z = 1/z`, `u = fu*x*one_over_z + cu`, `v = fv*y*one_over_z + cv`,
`d = fu*b*one_over_z`. -/
def projectRawPoint (c : StereoCamera F) (pt : Fin 3 → F) : Fin 3 → F :=
  ![c.fu * pt 0 * (1 / pt 2) + c.cu,
    c.fv * pt 1 * (1 / pt 2) + c.cv,
    c.fu * c.b * (1 / pt 2)]

/-- `StereoCamera.project` on one point (without Jacobians): the computed
`uvd` row, replaced by the NaN sentinel (`none`) when
`is_valid_measurement` rejects it. -/
def projectPoint (c : StereoCamera F) (pt : Fin 3 → F) : Option (Fin 3 → F) :=
  if isValidMeasurement c (projectRawPoint c pt) then
    some (projectRawPoint c pt)
  else
    none

/-- The arithmetic core of `StereoCamera.triangulate`:
`b_over_d = b/d`, `fu_over_fv = fu/fv`,
`x = (u - cu)*b_over_d`, `y = (v - cv)*b_over_d*fu_over_fv`,
`z = fu*b_over_d`. -/
def triangulateRawPoint (c : StereoCamera F) (uvd : Fin 3 → F) : Fin 3 → F :=
  ![(uvd 0 - c.cu) * (c.b / uvd 2),
    (uvd 1 - c.cv) * (c.b / uvd 2) * (c.fu / c.fv),
    c.fu * (c.b / uvd 2)]

/-- `StereoCamera.triangulate` on one observation (without Jacobians): the
computed point, replaced by the NaN sentinel (`none`) when the input
observation is invalid. -/
def triangulatePoint (c : StereoCamera F) (uvd : Fin 3 → F) :
    Option (Fin 3 → F) :=
  if isValidMeasurement c uvd then
    some (triangulateRawPoint c uvd)
  else
    none

/-- Characterization of `is_valid_measurement` as a proposition. -/
theorem isValidMeasurement_eq_true_iff (c : StereoCamera F) (uvd : Fin 3 → F) :
    isValidMeasurement c uvd = true ↔
      (0 < uvd 0 ∧ uvd 0 < (c.w : F)) ∧ (0 < uvd 1 ∧ uvd 1 < (c.h : F)) ∧
        0 < uvd 2 := by
  simp [isValidMeasurement, and_assoc]

/-- **C7.** For every `(u,v,d)` observation row, `is_valid_measurement`
returns `false` iff `d ≤ 0`, or `u` is not strictly between `0` and `width`,
or `v` is not strictly between `0` and `height`; it returns `true`
otherwise; and the batch version applies this check per element. -/
theorem C7_is_valid_measurement_characterization (c : StereoCamera ℝ)
    (uvd : Fin 3 → ℝ) (rows : List (Fin 3 → ℝ)) (i : ℕ) (hi : i < rows.length) :
    (isValidMeasurement c uvd = false ↔
      uvd 2 ≤ 0 ∨ ¬(0 < uvd 0 ∧ uvd 0 < (c.w : ℝ)) ∨
        ¬(0 < uvd 1 ∧ uvd 1 < (c.h : ℝ))) ∧
    (isValidMeasurement c uvd = true ↔
      ¬(uvd 2 ≤ 0 ∨ ¬(0 < uvd 0 ∧ uvd 0 < (c.w : ℝ)) ∨
        ¬(0 < uvd 1 ∧ uvd 1 < (c.h : ℝ)))) ∧
    (isValidMeasurementBatch c rows).getD i false =
      isValidMeasurement c (rows.getD i 0) := by
  refine ⟨?_, ?_, ?_⟩
  · rw [← Bool.not_eq_true, isValidMeasurement_eq_true_iff, ← not_lt]
    tauto
  · rw [isValidMeasurement_eq_true_iff, ← not_lt]
    tauto
  · rw [isValidMeasurementBatch, List.getD_eq_getElem?_getD,
      List.getD_eq_getElem?_getD, List.getElem?_map,
      List.getElem?_eq_getElem hi]
    simp

/-- A concrete camera used to instantiate hypotheses in witnesses. -/
def camA : StereoCamera ℝ := ⟨0, 0, 1, 1, 1, 2, 2⟩

/-- Witness for C7 at a concrete camera, row and batch index. -/
theorem C7_is_valid_measurement_characterization_witness :
    0 < [(![1, 1, 1] : Fin 3 → ℝ)].length ∧
      ((isValidMeasurementBatch camA [![1, 1, 1]]).getD 0 false =
        isValidMeasurement camA ([(![1, 1, 1] : Fin 3 → ℝ)].getD 0 0)) :=
  ⟨by norm_num,
    (C7_is_valid_measurement_characterization camA ![1, 1, 1] [![1, 1, 1]] 0
      (by norm_num)).2.2⟩

/-- **C3.** For every 3D point `p` such that `project(p)` is a valid
measurement, `triangulate(project(p)) = p`; symmetrically, for every valid
observation `obs`, `project(triangulate(obs)) = obs` (exactly, under the
exact-arithmetic embedding).  Intrinsics are assumed nonzero
(`fu ≠ 0`, `fv ≠ 0`, `b ≠ 0`), as for any physical stereo camera. -/
theorem C3_project_triangulate_round_trip (c : StereoCamera ℝ)
    (hfu : c.fu ≠ 0) (hfv : c.fv ≠ 0) (hb : c.b ≠ 0) :
    (∀ p obs, projectPoint c p = some obs → triangulatePoint c obs = some p) ∧
    (∀ obs q, triangulatePoint c obs = some q → projectPoint c q = some obs) := by
  constructor
  · intro p obs h
    rw [projectPoint, Option.ite_none_right_eq_some] at h
    obtain ⟨hv, hobs⟩ := h
    rw [Option.some_inj] at hobs
    subst hobs
    have hd : 0 < projectRawPoint c p 2 :=
      ((isValidMeasurement_eq_true_iff c _).mp hv).2.2
    have hp2 : p 2 ≠ 0 := by
      intro h0
      simp [projectRawPoint, h0] at hd
    rw [triangulatePoint, if_pos hv, Option.some_inj]
    funext k
    fin_cases k
    · show (projectRawPoint c p 0 - c.cu) * (c.b / projectRawPoint c p 2) = p 0
      simp only [projectRawPoint, Matrix.cons_val_zero, Matrix.cons_val_two,
        Matrix.tail_cons, Matrix.head_cons]
      field_simp
      ring
    · show (projectRawPoint c p 1 - c.cv) * (c.b / projectRawPoint c p 2) *
        (c.fu / c.fv) = p 1
      simp only [projectRawPoint, Matrix.cons_val_one, Matrix.cons_val_two,
        Matrix.tail_cons, Matrix.head_cons]
      field_simp
      ring
    · show c.fu * (c.b / projectRawPoint c p 2) = p 2
      simp only [projectRawPoint, Matrix.cons_val_two, Matrix.tail_cons,
        Matrix.head_cons]
      field_simp
      ring
  · intro obs q h
    rw [triangulatePoint, Option.ite_none_right_eq_some] at h
    obtain ⟨hv, hq⟩ := h
    rw [Option.some_inj] at hq
    subst hq
    have hd : 0 < obs 2 := ((isValidMeasurement_eq_true_iff c _).mp hv).2.2
    have hd2 : obs 2 ≠ 0 := ne_of_gt hd
    have hkey : projectRawPoint c (triangulateRawPoint c obs) = obs := by
      funext k
      fin_cases k
      · show c.fu * triangulateRawPoint c obs 0 *
          (1 / triangulateRawPoint c obs 2) + c.cu = obs 0
        simp only [triangulateRawPoint, Matrix.cons_val_zero, Matrix.cons_val_two,
          Matrix.tail_cons, Matrix.head_cons]
        field_simp
        ring
      · show c.fv * triangulateRawPoint c obs 1 *
          (1 / triangulateRawPoint c obs 2) + c.cv = obs 1
        simp only [triangulateRawPoint, Matrix.cons_val_one, Matrix.cons_val_two,
          Matrix.tail_cons, Matrix.head_cons]
        field_simp
        ring
      · show c.fu * c.b * (1 / triangulateRawPoint c obs 2) = obs 2
        simp only [triangulateRawPoint, Matrix.cons_val_two, Matrix.tail_cons,
          Matrix.head_cons]
        field_simp
    rw [projectPoint, hkey, if_pos hv]

/-- Witness for C3: the concrete camera `camA` and the point `(1,1,1)`,
which projects to the valid measurement `(1,1,1)` and triangulates back. -/
theorem C3_project_triangulate_round_trip_witness :
    camA.fu ≠ 0 ∧ camA.fv ≠ 0 ∧ camA.b ≠ 0 ∧
      projectPoint camA ![1, 1, 1] = some ![1, 1, 1] ∧
      triangulatePoint camA ![1, 1, 1] = some ![1, 1, 1] := by
  have hvalid : isValidMeasurement camA (![1, 1, 1] : Fin 3 → ℝ) = true := by
    rw [isValidMeasurement_eq_true_iff]
    norm_num [camA]
  have hraw : projectRawPoint camA ![1, 1, 1] = ![1, 1, 1] := by
    funext k
    fin_cases k <;> norm_num [projectRawPoint, camA]
  have hproj : projectPoint camA ![1, 1, 1] = some ![1, 1, 1] := by
    rw [projectPoint, hraw, if_pos hvalid]
  refine ⟨by norm_num [camA], by norm_num [camA], by norm_num [camA], hproj, ?_⟩
  exact (C3_project_triangulate_round_trip camA (by norm_num [camA])
    (by norm_num [camA]) (by norm_num [camA])).1 ![1, 1, 1] ![1, 1, 1] hproj

/-! ## `compute_ransac_cost_fast` (ransac.py, lines 59-89) -/

/-- The camera parameter tuple `cu, cv, fu, fv, b` unpacked by
`compute_ransac_cost_fast` (built at ransac.py line 125). -/
structure CamParams (F : Type) where
  cu : F
  cv : F
  fu : F
  fv : F
  b : F

/-- ransac.py line 125: `cam_params = camera.cu, camera.cv, camera.fu,
camera.fv, camera.b`. -/
def camParams (c : StereoCamera F) : CamParams F :=
  ⟨c.cu, c.cv, c.fu, c.fv, c.b⟩

/-- ransac.py lines 71-78: the transformed coordinate
`x = T_21[r, 3] + T_21[r, 0]*p[0] + T_21[r, 1]*p[1] + T_21[r, 2]*p[2]`
over NaN-extended scalars. -/
def transformedCoord (T : Matrix (Fin 4) (Fin 4) F) (p : Fin 3 → FNum F)
    (r : Fin 3) : FNum F :=
  FNum.add
    (FNum.add
      (FNum.add (some (T r.castSucc 3))
        (FNum.mul (some (T r.castSucc 0)) (p 0)))
      (FNum.mul (some (T r.castSucc 1)) (p 1)))
    (FNum.mul (some (T r.castSucc 2)) (p 2))

/-- ransac.py lines 80-87: reproject the transformed point through the
stereo model and take the sum of squared differences with the observed
measurement. -/
def ransacSquaredError (cp : CamParams F) (T : Matrix (Fin 4) (Fin 4) F)
    (p o : Fin 3 → FNum F) : FNum F :=
  let x := transformedCoord T p 0
  let y := transformedCoord T p 1
  let z := transformedCoord T p 2
  let ooz := FNum.div (some 1) z
  let xt := FNum.add (FNum.mul (FNum.mul (some cp.fu) x) ooz) (some cp.cu)
  let yt := FNum.add (FNum.mul (FNum.mul (some cp.fv) y) ooz) (some cp.cv)
  let zt := FNum.mul (FNum.mul (some cp.fu) (some cp.b)) ooz
  FNum.add
    (FNum.add (FNum.mul (FNum.sub xt (o 0)) (FNum.sub xt (o 0)))
      (FNum.mul (FNum.sub yt (o 1)) (FNum.sub yt (o 1))))
    (FNum.mul (FNum.sub zt (o 2)) (FNum.sub zt (o 2)))

/-- `compute_ransac_cost_fast` for one candidate transform: the boolean
inlier mask `out[i] = error_i < inlier_thresh`. -/
def computeRansacCostFast (T : Matrix (Fin 4) (Fin 4) F)
    (pts1 obs2 : List (Fin 3 → FNum F)) (cp : CamParams F) (thresh : F) :
    List Bool :=
  List.zipWith (fun p o => FNum.lt (ransacSquaredError cp T p o) thresh)
    pts1 obs2

/-- Real-valued transformed coordinate (specification side of C5). -/
def affineCoord (T : Matrix (Fin 4) (Fin 4) F) (p : Fin 3 → F) (r : Fin 3) :
    F :=
  T r.castSucc 3 + T r.castSucc 0 * p 0 + T r.castSucc 1 * p 1 +
    T r.castSucc 2 * p 2

/-- Real-valued sum of squared reprojection differences (specification side
of C5). -/
def reprojError (cp : CamParams F) (T : Matrix (Fin 4) (Fin 4) F)
    (p o : Fin 3 → F) : F :=
  (cp.fu * affineCoord T p 0 / affineCoord T p 2 + cp.cu - o 0) ^ 2 +
    (cp.fv * affineCoord T p 1 / affineCoord T p 2 + cp.cv - o 1) ^ 2 +
    (cp.fu * cp.b / affineCoord T p 2 - o 2) ^ 2

@[simp]
theorem FNum.add_none (a : FNum F) : FNum.add a none = none := by
  cases a <;> rfl

@[simp]
theorem FNum.none_add (a : FNum F) : FNum.add none a = none := by
  cases a <;> rfl

@[simp]
theorem FNum.sub_none (a : FNum F) : FNum.sub a none = none := by
  cases a <;> rfl

@[simp]
theorem FNum.none_sub (a : FNum F) : FNum.sub none a = none := by
  cases a <;> rfl

@[simp]
theorem FNum.mul_none (a : FNum F) : FNum.mul a none = none := by
  cases a <;> rfl

@[simp]
theorem FNum.none_mul (a : FNum F) : FNum.mul none a = none := by
  cases a <;> rfl

@[simp]
theorem FNum.some_add_some (a b : F) :
    FNum.add (some a) (some b) = some (a + b) := rfl

@[simp]
theorem FNum.some_sub_some (a b : F) :
    FNum.sub (some a) (some b) = some (a - b) := rfl

@[simp]
theorem FNum.some_mul_some (a b : F) :
    FNum.mul (some a) (some b) = some (a * b) := rfl

theorem FNum.some_div_some (a b : F) (hb : b ≠ 0) :
    FNum.div (some a) (some b) = some (a / b) := by
  simp [FNum.div, hb]

/-- On all-real inputs the NaN-extended transformed coordinate computes the
real affine coordinate. -/
theorem transformedCoord_some (T : Matrix (Fin 4) (Fin 4) F) (p : Fin 3 → F)
    (r : Fin 3) :
    transformedCoord T (fun k => some (p k)) r = some (affineCoord T p r) := by
  simp [transformedCoord, affineCoord]

/-- **C5.** For every candidate transform and correspondence index `i` with
real (non-NaN) data and a nonzero transformed depth, the inlier mask entry
is `true` iff the sum of squared differences between the reprojected
`(u,v,d)` measurement of the transformed point and the observed measurement
is strictly less than the supplied scalar threshold — the threshold is
compared directly to the sum-of-squares error, not squared first. -/
theorem C5_inlier_mask_iff_squared_error_below_threshold (cp : CamParams ℝ)
    (T : Matrix (Fin 4) (Fin 4) ℝ) (thresh : ℝ)
    (pts1 obs2 : List (Fin 3 → FNum ℝ)) (i : ℕ) (p o : Fin 3 → ℝ)
    (h1 : i < pts1.length) (h2 : i < obs2.length)
    (hp : pts1[i] = fun k => some (p k))
    (ho : obs2[i] = fun k => some (o k))
    (hz : affineCoord T p 2 ≠ 0) :
    (computeRansacCostFast T pts1 obs2 cp thresh).getD i false = true ↔
      reprojError cp T p o < thresh := by
  have hmin : i < (List.zipWith
      (fun p o => FNum.lt (ransacSquaredError cp T p o) thresh)
      pts1 obs2).length := by
    rw [List.length_zipWith]
    exact lt_min h1 h2
  rw [computeRansacCostFast, List.getD_eq_getElem _ _ hmin,
    List.getElem_zipWith, hp, ho]
  simp only [ransacSquaredError, transformedCoord_some,
    FNum.some_div_some _ _ hz, FNum.some_mul_some, FNum.some_add_some,
    FNum.some_sub_some, FNum.lt, decide_eq_true_eq]
  have key : ∀ a b : ℝ, a = b → (a < thresh ↔ b < thresh) := by
    intro a b hab
    rw [hab]
  apply key
  unfold reprojError
  ring

/-- Witness for C5: identity transform, unit camera, the point `(0,0,1)`
observed at `(0,0,1)`. -/
theorem C5_inlier_mask_iff_squared_error_below_threshold_witness :
    (0 : ℕ) < [fun k => some ((![0, 0, 1] : Fin 3 → ℝ) k)].length ∧
    affineCoord (1 : Matrix (Fin 4) (Fin 4) ℝ) ![0, 0, 1] 2 ≠ 0 ∧
    ((computeRansacCostFast (1 : Matrix (Fin 4) (Fin 4) ℝ)
        [fun k => some ((![0, 0, 1] : Fin 3 → ℝ) k)]
        [fun k => some ((![0, 0, 1] : Fin 3 → ℝ) k)]
        (camParams camA) 5).getD 0 false = true ↔
      reprojError (camParams camA) 1 ![0, 0, 1] ![0, 0, 1] < 5) := by
  have hz : affineCoord (1 : Matrix (Fin 4) (Fin 4) ℝ) ![0, 0, 1] 2 ≠ 0 := by
    simp +decide [affineCoord, Matrix.one_apply]
  exact ⟨by norm_num, hz,
    C5_inlier_mask_iff_squared_error_below_threshold (camParams camA) 1 5
      _ _ 0 ![0, 0, 1] ![0, 0, 1] (by norm_num) (by norm_num) rfl rfl hz⟩

/-- **C10.** A correspondence whose `stereo_obs_2` row carries the NaN
sentinel in any component is never marked as an inlier, for any candidate
transform: its squared error is NaN and the strict comparison of NaN
against the threshold yields `false`. -/
theorem C10_nan_observation_never_inlier (cp : CamParams ℝ)
    (T : Matrix (Fin 4) (Fin 4) ℝ) (thresh : ℝ)
    (pts1 obs2 : List (Fin 3 → FNum ℝ)) (i : ℕ) (k : Fin 3)
    (h1 : i < pts1.length) (h2 : i < obs2.length)
    (hnan : obs2[i] k = none) :
    ransacSquaredError cp T pts1[i] obs2[i] = none ∧
    (computeRansacCostFast T pts1 obs2 cp thresh).getD i false = false := by
  have herr : ransacSquaredError cp T pts1[i] obs2[i] = none := by
    fin_cases k <;> simp at hnan <;> simp [ransacSquaredError, hnan]
  refine ⟨herr, ?_⟩
  have hmin : i < (List.zipWith
      (fun p o => FNum.lt (ransacSquaredError cp T p o) thresh)
      pts1 obs2).length := by
    rw [List.length_zipWith]
    exact lt_min h1 h2
  rw [computeRansacCostFast, List.getD_eq_getElem _ _ hmin,
    List.getElem_zipWith, herr]
  rfl

/-- Witness for C10: a fully-NaN observation row against the point
`(0,0,1)` and the identity transform. -/
theorem C10_nan_observation_never_inlier_witness :
    ransacSquaredError (camParams camA) (1 : Matrix (Fin 4) (Fin 4) ℝ)
        ([fun k => some ((![0, 0, 1] : Fin 3 → ℝ) k)].getD 0 (fun _ => none))
        ([fun _ => (none : FNum ℝ)].getD 0 (fun _ => none)) = none ∧
    (computeRansacCostFast (1 : Matrix (Fin 4) (Fin 4) ℝ)
        [fun k => some ((![0, 0, 1] : Fin 3 → ℝ) k)]
        [fun _ => (none : FNum ℝ)] (camParams camA) 5).getD 0 false = false :=
  C10_nan_observation_never_inlier (camParams camA) 1 5
    [fun k => some ((![0, 0, 1] : Fin 3 → ℝ) k)] [fun _ => none] 0 0
    (by norm_num) (by norm_num) rfl

/-! ## `compute_transform_fast` (ransac.py, lines 11-56)

`np.linalg.svd(W)` returns factors `U, s, V` with `W = U @ diag(s) @ V`
(the returned `V` is already the transposed factor `Vh`), `U` and `V`
orthogonal and `s` nonnegative in descending order.  The routine is a
numerical library call, so it is embedded by passing the factors `U`, `σ`,
`Vh` explicitly and quantifying over every factorization satisfying the
SVD contract `IsSVD`. -/

/-- The contract of `np.linalg.svd` for a 3×3 matrix `W`: `W = U·diag σ·Vh`
with `U`, `Vh` orthogonal and the singular values `σ` nonnegative and
descending. -/
structure IsSVD (W U : Matrix (Fin 3) (Fin 3) F) (σ : Fin 3 → F)
    (Vh : Matrix (Fin 3) (Fin 3) F) : Prop where
  decomp : W = U * Matrix.diagonal σ * Vh
  orthoU : Uᵀ * U = 1
  orthoVh : Vh * Vhᵀ = 1
  nonneg : ∀ j, 0 ≤ σ j
  ordered : σ 1 ≤ σ 0 ∧ σ 2 ≤ σ 1

/-- Per-axis arithmetic mean of `n` points (ransac.py lines 19-22). -/
def centroid (n : ℕ) (pts : Fin n → Fin 3 → F) : Fin 3 → F :=
  fun j => (∑ i, pts i j) / n

/-- Cross-covariance `W = (1/numPts) * pts_2_c.T @ pts_1_c` of the centered
point sets (ransac.py lines 24-27). -/
def crossCov (n : ℕ) (pts1 pts2 : Fin n → Fin 3 → F) :
    Matrix (Fin 3) (Fin 3) F :=
  Matrix.of fun a b =>
    (1 / (n : F)) *
      ∑ i, (pts2 i a - centroid n pts2 a) * (pts1 i b - centroid n pts1 b)

/-- Reflection-corrected rotation `C_21 = U @ S @ V` with
`S = identity, S[2,2] = det(U)*det(V)` (ransac.py lines 29-32); the `V`
bound by the code is the transposed SVD factor `Vh`. -/
def rotFit (U Vh : Matrix (Fin 3) (Fin 3) F) : Matrix (Fin 3) (Fin 3) F :=
  U * Matrix.diagonal ![1, 1, U.det * Vh.det] * Vh

/-- `r_21_1 = -C_21.T @ centroid_2 + centroid_1` (ransac.py line 34). -/
def rFit (n : ℕ) (pts1 pts2 : Fin n → Fin 3 → F)
    (U Vh : Matrix (Fin 3) (Fin 3) F) : Fin 3 → F :=
  (-(rotFit U Vh)ᵀ).mulVec (centroid n pts2) + centroid n pts1

/-- `trans = -C_21 @ r_21_1` (ransac.py line 35). -/
def transFit (n : ℕ) (pts1 pts2 : Fin n → Fin 3 → F)
    (U Vh : Matrix (Fin 3) (Fin 3) F) : Fin 3 → F :=
  (-(rotFit U Vh)).mulVec (rFit n pts1 pts2 U Vh)

/-- The 4×4 output of `compute_transform_fast`, assembled entry by entry
(ransac.py lines 38-56): rotation block, translation column, bottom row
`0 0 0 1`. -/
def computeTransformFast (n : ℕ) (pts1 pts2 : Fin n → Fin 3 → F)
    (U Vh : Matrix (Fin 3) (Fin 3) F) : Matrix (Fin 4) (Fin 4) F :=
  Matrix.of fun a b =>
    if ha : (a : ℕ) < 3 then
      if hb : (b : ℕ) < 3 then rotFit U Vh ⟨a, ha⟩ ⟨b, hb⟩
      else transFit n pts1 pts2 U Vh ⟨a, ha⟩
    else if (b : ℕ) < 3 then 0 else 1

/-- The homogeneous 4×4 form of a rotation-plus-translation pair, used to
state recovery: rotation block `R`, translation column `t`, bottom row
`0 0 0 1`. -/
def homTransform (R : Matrix (Fin 3) (Fin 3) F) (t : Fin 3 → F) :
    Matrix (Fin 4) (Fin 4) F :=
  Matrix.of fun a b =>
    if ha : (a : ℕ) < 3 then
      if hb : (b : ℕ) < 3 then R ⟨a, ha⟩ ⟨b, hb⟩ else t ⟨a, ha⟩
    else if (b : ℕ) < 3 then 0 else 1

/-- Determinants of orthogonal factors square to one. -/
theorem det_mul_self_eq_one_of_orthoL {U : Matrix (Fin 3) (Fin 3) F}
    (h : Uᵀ * U = 1) : U.det * U.det = 1 := by
  have := congrArg Matrix.det h
  rwa [Matrix.det_mul, Matrix.det_transpose, Matrix.det_one] at this

/-- Determinants of orthogonal factors square to one (row-orthonormal
form). -/
theorem det_mul_self_eq_one_of_orthoR {V : Matrix (Fin 3) (Fin 3) F}
    (h : V * Vᵀ = 1) : V.det * V.det = 1 := by
  have := congrArg Matrix.det h
  rwa [Matrix.det_mul, Matrix.det_transpose, Matrix.det_one] at this

/-- **C2.** For every pair of equal-length 3D point sets and every SVD of
their cross-covariance, the rotation block of the returned 4×4 matrix is
`C = U·S·Vᵀ` with `S = diag(1, 1, det U · det V)`, and its determinant is
exactly `+1` — including raw-SVD reflections `det U · det V = -1`. -/
theorem C2_rotation_determinant_exactly_one (n : ℕ)
    (pts1 pts2 : Fin n → Fin 3 → ℝ) (U : Matrix (Fin 3) (Fin 3) ℝ)
    (σ : Fin 3 → ℝ) (Vh : Matrix (Fin 3) (Fin 3) ℝ)
    (hsvd : IsSVD (crossCov n pts1 pts2) U σ Vh) :
    (∀ a b : Fin 3,
      computeTransformFast n pts1 pts2 U Vh a.castSucc b.castSucc =
        rotFit U Vh a b) ∧
    (rotFit U Vh).det = 1 := by
  constructor
  · intro a b
    have ha : ((a.castSucc : Fin 4) : ℕ) < 3 := a.isLt
    have hb : ((b.castSucc : Fin 4) : ℕ) < 3 := b.isLt
    simp [computeTransformFast, ha, hb]
  · have hU2 : U.det * U.det = 1 := det_mul_self_eq_one_of_orthoL hsvd.orthoU
    have hV2 : Vh.det * Vh.det = 1 := det_mul_self_eq_one_of_orthoR hsvd.orthoVh
    have hdet : (rotFit U Vh).det = (U.det * U.det) * (Vh.det * Vh.det) := by
      rw [rotFit, Matrix.det_mul, Matrix.det_mul, Matrix.det_diagonal,
        Fin.prod_univ_three]
      simp only [Matrix.cons_val_zero, Matrix.cons_val_one, Matrix.head_cons,
        Matrix.cons_val_two, Matrix.tail_cons]
      ring
    rw [hdet, hU2, hV2, one_mul]

/-- Witness for C2: the all-zero point sets, whose cross-covariance is the
zero matrix, with the trivial SVD `U = 1`, `σ = 0`, `Vh = 1`. -/
theorem C2_rotation_determinant_exactly_one_witness :
    IsSVD (crossCov 3 (fun _ _ => (0 : ℝ)) (fun _ _ => 0)) 1 (fun _ => 0) 1 ∧
    ((∀ a b : Fin 3,
      computeTransformFast 3 (fun _ _ => (0 : ℝ)) (fun _ _ => 0) 1 1
        a.castSucc b.castSucc = rotFit 1 1 a b) ∧
    (rotFit (1 : Matrix (Fin 3) (Fin 3) ℝ) 1).det = 1) := by
  have hsvd : IsSVD (crossCov 3 (fun _ _ => (0 : ℝ)) (fun _ _ => 0)) 1
      (fun _ => 0) 1 := by
    refine ⟨?_, by simp, by simp, fun j => le_refl 0, le_refl 0, le_refl 0⟩
    ext a b
    simp [crossCov, centroid, Matrix.diagonal]
  exact ⟨hsvd,
    C2_rotation_determinant_exactly_one 3 (fun _ _ => 0) (fun _ _ => 0) 1
      (fun _ => 0) 1 hsvd⟩

/-! ### Algebraic layer for the Kabsch recovery proof (C1) -/

/-- The (scaled) covariance matrix `M = (1/n) Σᵢ qᵢ qᵢᵀ` of a family of
centered points; `crossCov n P (T·P)` factors as `R * covM` of the centered
`P`. -/
def covM (n : ℕ) (q : Fin n → Fin 3 → F) : Matrix (Fin 3) (Fin 3) F :=
  (1 / (n : F)) • ∑ i, vecMulVec (q i) (q i)

/-- Row `j` of a matrix as a vector. -/
def vrow (A : Matrix (Fin 3) (Fin 3) F) (j : Fin 3) : Fin 3 → F :=
  fun b => A j b

theorem covM_apply (n : ℕ) (q : Fin n → Fin 3 → F) (a b : Fin 3) :
    covM n q a b = (1 / (n : F)) * ∑ i, q i a * q i b := by
  simp only [covM, Matrix.smul_apply, Matrix.sum_apply, vecMulVec_apply,
    smul_eq_mul]

theorem covM_transpose (n : ℕ) (q : Fin n → Fin 3 → F) :
    (covM n q)ᵀ = covM n q := by
  ext a b
  simp only [transpose_apply, covM_apply]
  congr 1
  exact Finset.sum_congr rfl fun i _ => mul_comm _ _

theorem covM_mulVec (n : ℕ) (q : Fin n → Fin 3 → F) (x : Fin 3 → F) :
    (covM n q).mulVec x = (1 / (n : F)) • ∑ i, (q i ⬝ᵥ x) • q i := by
  funext a
  have lhs : (covM n q).mulVec x a
      = (1 / (n : F)) * ∑ b, (∑ i, q i a * q i b) * x b := by
    simp only [Matrix.mulVec, dotProduct, covM_apply]
    rw [Finset.mul_sum]
    exact Finset.sum_congr rfl fun b _ => by ring
  have rhs : ((1 / (n : F)) • ∑ i, (q i ⬝ᵥ x) • q i) a
      = (1 / (n : F)) * ∑ i, (q i ⬝ᵥ x) * q i a := by
    simp [Finset.sum_apply]
  rw [lhs, rhs]
  congr 1
  simp only [Finset.sum_mul, dotProduct]
  rw [Finset.sum_comm]
  exact Finset.sum_congr rfl fun i _ => Finset.sum_congr rfl fun b _ => by ring

theorem covM_quadratic (n : ℕ) (q : Fin n → Fin 3 → F) (x : Fin 3 → F) :
    x ⬝ᵥ (covM n q).mulVec x =
      (1 / (n : F)) * ∑ i, (q i ⬝ᵥ x) * (q i ⬝ᵥ x) := by
  rw [covM_mulVec]
  have lhs : x ⬝ᵥ ((1 / (n : F)) • ∑ i, (q i ⬝ᵥ x) • q i)
      = (1 / (n : F)) * ∑ i, (q i ⬝ᵥ x) * (x ⬝ᵥ q i) := by
    simp only [dotProduct, Pi.smul_apply, Finset.sum_apply, smul_eq_mul]
    rw [Finset.mul_sum]
    simp only [Finset.mul_sum]
    rw [Finset.sum_comm]
    exact Finset.sum_congr rfl fun i _ =>
      Finset.sum_congr rfl fun b _ => by ring
  rw [lhs]
  congr 1
  exact Finset.sum_congr rfl fun i _ => by rw [dotProduct_comm x (q i)]

theorem covM_posSemidef (n : ℕ) (q : Fin n → Fin 3 → F) (x : Fin 3 → F) :
    0 ≤ x ⬝ᵥ (covM n q).mulVec x := by
  rw [covM_quadratic]
  refine mul_nonneg ?_ (Finset.sum_nonneg fun i _ => mul_self_nonneg _)
  positivity

/-- Transposition symmetry lets the matrix move across the dot product. -/
theorem dot_mulVec_symm {M : Matrix (Fin 3) (Fin 3) F} (hM : Mᵀ = M)
    (x y : Fin 3 → F) : M.mulVec x ⬝ᵥ y = x ⬝ᵥ M.mulVec y := by
  rw [dotProduct_mulVec, ← Matrix.mulVec_transpose, hM, dotProduct_comm]

/-- A symmetric positive-semidefinite matrix sends any vector `v` with
`M (M v) = s² v`, `s ≥ 0`, to `s v`: the positive square root is recovered
on such vectors. -/
theorem eigen_of_sq_eigen {M : Matrix (Fin 3) (Fin 3) F} (hM : Mᵀ = M)
    (hpsd : ∀ x, 0 ≤ x ⬝ᵥ M.mulVec x) {v : Fin 3 → F} {s : F} (hs : 0 ≤ s)
    (h2 : M.mulVec (M.mulVec v) = (s * s) • v) : M.mulVec v = s • v := by
  rcases eq_or_lt_of_le hs with hs0 | hspos
  · have hzero : M.mulVec v ⬝ᵥ M.mulVec v = 0 := by
      rw [dot_mulVec_symm hM, h2, ← hs0]
      simp
    have := dotProduct_self_eq_zero.mp hzero
    rw [this, ← hs0, zero_smul]
  · set w : Fin 3 → F := M.mulVec v - s • v with hw
    have hMw : M.mulVec w = (-s) • w := by
      rw [hw, Matrix.mulVec_sub, Matrix.mulVec_smul, h2]
      funext a
      simp only [Pi.sub_apply, Pi.smul_apply, smul_eq_mul]
      ring
    have hquad : w ⬝ᵥ M.mulVec w = (-s) * (w ⬝ᵥ w) := by
      rw [hMw, dotProduct_smul, smul_eq_mul]
    have hwnn : 0 ≤ w ⬝ᵥ w := Finset.sum_nonneg fun b _ => mul_self_nonneg _
    have hww : w ⬝ᵥ w = 0 := by
      have hle := hpsd w
      rw [hquad] at hle
      nlinarith
    have hw0 : w = 0 := dotProduct_self_eq_zero.mp hww
    have : M.mulVec v - s • v = 0 := by rw [← hw, hw0]
    funext a
    have := congrFun this a
    simp only [Pi.sub_apply, Pi.zero_apply, sub_eq_zero] at this
    exact this

/-- Rows of a row-orthonormal matrix multiply to coordinate vectors. -/
theorem vh_mulVec_vrow {Vh : Matrix (Fin 3) (Fin 3) F} (hVh : Vh * Vhᵀ = 1)
    (j : Fin 3) : Vh.mulVec (vrow Vh j) = Pi.single j 1 := by
  funext k
  have : Vh.mulVec (vrow Vh j) k = (Vh * Vhᵀ) k j := by
    simp [Matrix.mulVec, dotProduct, Matrix.mul_apply, vrow,
      Matrix.transpose_apply]
  rw [this, hVh, Matrix.one_apply, Pi.single_apply]

/-- Rows of a row-orthonormal matrix are unit vectors. -/
theorem vrow_dot_self {Vh : Matrix (Fin 3) (Fin 3) F} (hVh : Vh * Vhᵀ = 1)
    (j : Fin 3) : vrow Vh j ⬝ᵥ vrow Vh j = 1 := by
  have : vrow Vh j ⬝ᵥ vrow Vh j = (Vh * Vhᵀ) j j := by
    simp [dotProduct, Matrix.mul_apply, vrow, Matrix.transpose_apply]
  rw [this, hVh, Matrix.one_apply_eq]

/-- `M² = Vhᵀ · diag(σ²) · Vh` whenever `R·M` has SVD `U·diag σ·Vh`,
`R` is orthogonal and `M` symmetric. -/
theorem covSq_eq_vht_diag_vh {M R U Vh : Matrix (Fin 3) (Fin 3) F}
    {σ : Fin 3 → F} (hsym : Mᵀ = M) (hR : Rᵀ * R = 1) (hU : Uᵀ * U = 1)
    (hdec : R * M = U * Matrix.diagonal σ * Vh) :
    M * M = Vhᵀ * Matrix.diagonal (fun j => σ j * σ j) * Vh := by
  have h1 : (R * M)ᵀ * (R * M) = M * M := by
    rw [Matrix.transpose_mul]
    calc Mᵀ * Rᵀ * (R * M) = Mᵀ * (Rᵀ * R) * M := by
          simp only [Matrix.mul_assoc]
      _ = M * M := by rw [hR, Matrix.mul_one, hsym]
  have h2 : (R * M)ᵀ * (R * M) =
      Vhᵀ * Matrix.diagonal (fun j => σ j * σ j) * Vh := by
    rw [hdec, Matrix.transpose_mul, Matrix.transpose_mul,
      Matrix.diagonal_transpose]
    calc Vhᵀ * (Matrix.diagonal σ * Uᵀ) * (U * Matrix.diagonal σ * Vh)
        = Vhᵀ * (Matrix.diagonal σ * ((Uᵀ * U) * Matrix.diagonal σ)) * Vh := by
          simp only [Matrix.mul_assoc]
      _ = Vhᵀ * (Matrix.diagonal σ * Matrix.diagonal σ) * Vh := by
          rw [hU, Matrix.one_mul]
      _ = Vhᵀ * Matrix.diagonal (fun j => σ j * σ j) * Vh := by
          rw [Matrix.diagonal_mul_diagonal]
  rw [← h1, h2]

/-- Each row of `Vh` is an eigenvector of `M²` with eigenvalue `σⱼ²`. -/
theorem covSq_eigen_vrow {M R U Vh : Matrix (Fin 3) (Fin 3) F}
    {σ : Fin 3 → F} (hsym : Mᵀ = M) (hR : Rᵀ * R = 1) (hU : Uᵀ * U = 1)
    (hVh : Vh * Vhᵀ = 1)
    (hdec : R * M = U * Matrix.diagonal σ * Vh) (j : Fin 3) :
    M.mulVec (M.mulVec (vrow Vh j)) = (σ j * σ j) • vrow Vh j := by
  rw [Matrix.mulVec_mulVec, covSq_eq_vht_diag_vh hsym hR hU hdec,
    ← Matrix.mulVec_mulVec, ← Matrix.mulVec_mulVec, vh_mulVec_vrow hVh,
    Matrix.diagonal_mulVec_single, mul_one, Matrix.mulVec_single]
  funext a
  simp [vrow, Matrix.transpose_apply, mul_comm]

/-- Each row of `Vh` is an eigenvector of the symmetric PSD factor `M`
itself, with eigenvalue `σⱼ ≥ 0`. -/
theorem covM_eigen_vrow {M R U Vh : Matrix (Fin 3) (Fin 3) F}
    {σ : Fin 3 → F} (hsym : Mᵀ = M)
    (hpsd : ∀ x, 0 ≤ x ⬝ᵥ M.mulVec x) (hR : Rᵀ * R = 1) (hU : Uᵀ * U = 1)
    (hVh : Vh * Vhᵀ = 1)
    (hdec : R * M = U * Matrix.diagonal σ * Vh) (j : Fin 3)
    (hj : 0 ≤ σ j) : M.mulVec (vrow Vh j) = σ j • vrow Vh j :=
  eigen_of_sq_eigen hsym hpsd hj (covSq_eigen_vrow hsym hR hU hVh hdec j)

/-- The eigenvalue `σⱼ` is the mean of the squared projections of the
centered points on row `j` of `Vh`. -/
theorem sigma_eq_mean_sq {n : ℕ} {q : Fin n → Fin 3 → F}
    {R U Vh : Matrix (Fin 3) (Fin 3) F} {σ : Fin 3 → F}
    (hR : Rᵀ * R = 1) (hU : Uᵀ * U = 1) (hVh : Vh * Vhᵀ = 1)
    (hdec : R * covM n q = U * Matrix.diagonal σ * Vh) (j : Fin 3)
    (hj : 0 ≤ σ j) :
    σ j = (1 / (n : F)) *
      ∑ i, (q i ⬝ᵥ vrow Vh j) * (q i ⬝ᵥ vrow Vh j) := by
  have heig := covM_eigen_vrow (covM_transpose n q) (covM_posSemidef n q)
    hR hU hVh hdec j hj
  have h1 : vrow Vh j ⬝ᵥ (covM n q).mulVec (vrow Vh j) = σ j := by
    rw [heig, dotProduct_smul, smul_eq_mul, vrow_dot_self hVh, mul_one]
  rw [← h1, covM_quadratic]

/-- For a nonzero singular value, column `j` of `U` equals `R` applied to
row `j` of `Vh`. -/
theorem col_eq_of_sigma_ne {M R U Vh : Matrix (Fin 3) (Fin 3) F}
    {σ : Fin 3 → F} (hsym : Mᵀ = M) (hpsd : ∀ x, 0 ≤ x ⬝ᵥ M.mulVec x)
    (hR : Rᵀ * R = 1) (hU : Uᵀ * U = 1) (hVh : Vh * Vhᵀ = 1)
    (hdec : R * M = U * Matrix.diagonal σ * Vh) (j : Fin 3)
    (hjnn : 0 ≤ σ j) (hj : σ j ≠ 0) :
    R.mulVec (vrow Vh j) = fun a => U a j := by
  have heig := covM_eigen_vrow hsym hpsd hR hU hVh hdec j hjnn
  have h1 : (R * M).mulVec (vrow Vh j) = σ j • R.mulVec (vrow Vh j) := by
    rw [← Matrix.mulVec_mulVec, heig, Matrix.mulVec_smul]
  have h2 : (U * Matrix.diagonal σ * Vh).mulVec (vrow Vh j) =
      σ j • fun a => U a j := by
    rw [← Matrix.mulVec_mulVec, ← Matrix.mulVec_mulVec, vh_mulVec_vrow hVh,
      Matrix.diagonal_mulVec_single, mul_one, Matrix.mulVec_single]
    funext a
    simp [mul_comm]
  rw [hdec, h2] at h1
  funext a
  have h3 := congrFun h1 a
  simp only [Pi.smul_apply, smul_eq_mul] at h3
  exact (mul_left_cancel₀ hj h3).symm

/-- Expansion of a vector in the columns of a column-orthonormal basis. -/
theorem expand_in_cols {U : Matrix (Fin 3) (Fin 3) F} (hUUt : U * Uᵀ = 1)
    (x : Fin 3 → F) (a : Fin 3) :
    x a = ∑ j, (∑ b, U b j * x b) * U a j := by
  have h : ∀ a b : Fin 3,
      (∑ j, U a j * U b j) = (1 : Matrix (Fin 3) (Fin 3) F) a b := by
    intro a b
    rw [← hUUt, Matrix.mul_apply]
    simp [Matrix.transpose_apply]
  calc x a = ∑ b, (1 : Matrix (Fin 3) (Fin 3) F) a b * x b := by
        simp [Matrix.one_apply]
    _ = ∑ b, (∑ j, U a j * U b j) * x b :=
        Finset.sum_congr rfl fun b _ => by rw [h a b]
    _ = ∑ j, (∑ b, U b j * x b) * U a j := by
        simp only [Finset.sum_mul]
        rw [Finset.sum_comm]
        exact Finset.sum_congr rfl fun j _ =>
          Finset.sum_congr rfl fun b _ => by ring

/-- Kabsch recovery: if `R·M` has SVD `U·diag σ·Vh` with `M` symmetric PSD,
`R` a rotation, and the two leading singular values nonzero, then the
reflection-corrected product `U·diag(1,1,det U·det Vh)·Vh` is exactly `R`. -/
theorem rotFit_eq_of_svd {M R U Vh : Matrix (Fin 3) (Fin 3) F}
    {σ : Fin 3 → F} (hsym : Mᵀ = M) (hpsd : ∀ x, 0 ≤ x ⬝ᵥ M.mulVec x)
    (hR : Rᵀ * R = 1) (hdetR : R.det = 1)
    (hsvd : IsSVD (R * M) U σ Vh) (hσ0 : σ 0 ≠ 0) (hσ1 : σ 1 ≠ 0) :
    rotFit U Vh = R := by
  obtain ⟨hdec, hU, hVh, hnn, hord⟩ := hsvd
  set A : Matrix (Fin 3) (Fin 3) F := R * Vhᵀ with hA
  have hAapply : ∀ a j, A a j = R.mulVec (vrow Vh j) a := by
    intro a j
    simp [hA, Matrix.mul_apply, Matrix.mulVec, dotProduct, vrow,
      Matrix.transpose_apply]
  have hcol0 : ∀ a, A a 0 = U a 0 := by
    intro a
    rw [hAapply,
      col_eq_of_sigma_ne hsym hpsd hR hU hVh hdec 0 (hnn 0) hσ0]
  have hcol1 : ∀ a, A a 1 = U a 1 := by
    intro a
    rw [hAapply,
      col_eq_of_sigma_ne hsym hpsd hR hU hVh hdec 1 (hnn 1) hσ1]
  have hAtA : Aᵀ * A = 1 := by
    rw [hA, Matrix.transpose_mul, Matrix.transpose_transpose]
    calc Vh * Rᵀ * (R * Vhᵀ) = Vh * (Rᵀ * R) * Vhᵀ := by
          simp only [Matrix.mul_assoc]
      _ = 1 := by rw [hR, Matrix.mul_one, hVh]
  have hUUt : U * Uᵀ = 1 := Matrix.mul_eq_one_comm.mp hU
  have hAdot : ∀ j1 j2 : Fin 3,
      (∑ b, A b j1 * A b j2) = (1 : Matrix (Fin 3) (Fin 3) F) j1 j2 := by
    intro j1 j2
    rw [← hAtA, Matrix.mul_apply]
    simp [Matrix.transpose_apply]
  set c : F := ∑ b, U b 2 * A b 2 with hc
  have hA2 : ∀ a, A a 2 = c * U a 2 := by
    intro a
    have hexp := expand_in_cols hUUt (fun b => A b 2) a
    simp only at hexp
    rw [Fin.sum_univ_three] at hexp
    have h0 : (∑ b, U b 0 * A b 2) = 0 := by
      have e : (∑ b, U b 0 * A b 2) = ∑ b, A b 0 * A b 2 :=
        Finset.sum_congr rfl fun b _ => by rw [hcol0 b]
      rw [e, hAdot 0 2, Matrix.one_apply_ne (by decide)]
    have h1 : (∑ b, U b 1 * A b 2) = 0 := by
      have e : (∑ b, U b 1 * A b 2) = ∑ b, A b 1 * A b 2 :=
        Finset.sum_congr rfl fun b _ => by rw [hcol1 b]
      rw [e, hAdot 1 2, Matrix.one_apply_ne (by decide)]
    rw [h0, h1] at hexp
    rw [hexp, ← hc]
    ring
  have hAeq : A = U * Matrix.diagonal ![1, 1, c] := by
    ext a j
    rw [Matrix.mul_diagonal]
    fin_cases j
    · simpa using hcol0 a
    · simpa using hcol1 a
    · simpa [mul_comm] using hA2 a
  have hdetA : A.det = Vh.det := by
    rw [hA, Matrix.det_mul, Matrix.det_transpose, hdetR, one_mul]
  have hdetA2 : A.det = U.det * c := by
    rw [hAeq, Matrix.det_mul, Matrix.det_diagonal, Fin.prod_univ_three]
    simp
  have hU2 : U.det * U.det = 1 := det_mul_self_eq_one_of_orthoL hU
  have hUc : U.det * c = Vh.det := hdetA2.symm.trans hdetA
  have hcval : c = U.det * Vh.det := by
    calc c = (U.det * U.det) * c := by rw [hU2, one_mul]
      _ = U.det * (U.det * c) := by ring
      _ = U.det * Vh.det := by rw [hUc]
  have hAV : A * Vh = R := by
    rw [hA, Matrix.mul_assoc, Matrix.mul_eq_one_comm.mp hVh, Matrix.mul_one]
  rw [rotFit, ← hcval, ← hAeq, hAV]

/-- If the second singular value vanishes, all centered points project to
zero on rows `1` and `2` of `Vh`, hence the point set is collinear. -/
theorem collinear_of_sigma1_eq_zero {n : ℕ} (hn : 0 < n)
    (P : Fin n → Fin 3 → F) {R U Vh : Matrix (Fin 3) (Fin 3) F}
    {σ : Fin 3 → F} (hR : Rᵀ * R = 1)
    (hdec : R * covM n (fun i => P i - centroid n P) =
      U * Matrix.diagonal σ * Vh)
    (hU : Uᵀ * U = 1) (hVh : Vh * Vhᵀ = 1) (hnn : ∀ j, 0 ≤ σ j)
    (hord : σ 2 ≤ σ 1) (h1 : σ 1 = 0) :
    Collinear F (Set.range P) := by
  set q : Fin n → Fin 3 → F := fun i => P i - centroid n P with hq
  have h2 : σ 2 = 0 := le_antisymm (h1 ▸ hord) (hnn 2)
  have hninv : (1 / (n : F)) ≠ 0 :=
    one_div_ne_zero (Nat.cast_ne_zero.mpr hn.ne')
  have hdotzero : ∀ j : Fin 3, σ j = 0 → ∀ i, q i ⬝ᵥ vrow Vh j = 0 := by
    intro j hj i
    have hmean := sigma_eq_mean_sq hR hU hVh hdec j (hnn j)
    rw [hj] at hmean
    have hsum : (∑ i, (q i ⬝ᵥ vrow Vh j) * (q i ⬝ᵥ vrow Vh j)) = 0 := by
      rcases mul_eq_zero.mp hmean.symm with h | h
      · exact absurd h hninv
      · exact h
    have := (Finset.sum_eq_zero_iff_of_nonneg
      (fun i _ => mul_self_nonneg _)).mp hsum i (Finset.mem_univ i)
    exact mul_self_eq_zero.mp this
  have hVtV : Vhᵀ * Vh = 1 := Matrix.mul_eq_one_comm.mp hVh
  have hVhUUt : Vhᵀ * (Vhᵀ)ᵀ = 1 := by
    rw [Matrix.transpose_transpose]
    exact hVtV
  have hqa : ∀ i a, q i a = (vrow Vh 0 ⬝ᵥ q i) * Vh 0 a := by
    intro i a
    have hexp := expand_in_cols hVhUUt (q i) a
    rw [Fin.sum_univ_three] at hexp
    have e0 : (∑ b, Vhᵀ b 0 * q i b) = vrow Vh 0 ⬝ᵥ q i := by
      simp [dotProduct, vrow, Matrix.transpose_apply]
    have e1 : (∑ b, Vhᵀ b 1 * q i b) = 0 := by
      have : (∑ b, Vhᵀ b 1 * q i b) = q i ⬝ᵥ vrow Vh 1 := by
        simp [dotProduct, vrow, Matrix.transpose_apply, mul_comm]
      rw [this, hdotzero 1 h1 i]
    have e2 : (∑ b, Vhᵀ b 2 * q i b) = 0 := by
      have : (∑ b, Vhᵀ b 2 * q i b) = q i ⬝ᵥ vrow Vh 2 := by
        simp [dotProduct, vrow, Matrix.transpose_apply, mul_comm]
      rw [this, hdotzero 2 h2 i]
    rw [e0, e1, e2] at hexp
    rw [hexp]
    simp [vrow, Matrix.transpose_apply]
  rw [collinear_iff_exists_forall_eq_smul_vadd]
  refine ⟨centroid n P, vrow Vh 0, ?_⟩
  rintro p ⟨i, rfl⟩
  refine ⟨vrow Vh 0 ⬝ᵥ q i, ?_⟩
  funext a
  have hPa : P i a = q i a + centroid n P a := by
    simp [hq]
  simp only [vadd_eq_add, Pi.add_apply, Pi.smul_apply, smul_eq_mul]
  rw [hPa, hqa i a]
  rfl

/-- The centroid of rigidly transformed points is the transformed
centroid. -/
theorem centroid_transform {n : ℕ} (hn : (n : F) ≠ 0) (P : Fin n → Fin 3 → F)
    (R : Matrix (Fin 3) (Fin 3) F) (t : Fin 3 → F) :
    centroid n (fun i => R.mulVec (P i) + t) = R.mulVec (centroid n P) + t := by
  funext j
  simp only [centroid, Pi.add_apply]
  rw [Finset.sum_add_distrib, Finset.sum_const, Finset.card_univ,
    Fintype.card_fin]
  have hswap : (∑ i, R.mulVec (P i) j) = ∑ b, R j b * ∑ i, P i b := by
    simp only [Matrix.mulVec, dotProduct]
    rw [Finset.sum_comm]
    exact Finset.sum_congr rfl fun b _ => (Finset.mul_sum _ _ _).symm
  rw [hswap, add_div, Finset.sum_div]
  congr 1
  · simp only [Matrix.mulVec, dotProduct, centroid]
    exact Finset.sum_congr rfl fun b _ => (mul_div_assoc _ _ _)
  · rw [nsmul_eq_mul]
    field_simp

/-- The cross-covariance of `(P, R·P + t)` factors as `R` times the
covariance of the centered `P`. -/
theorem crossCov_transformed {n : ℕ} (hn : (n : F) ≠ 0)
    (P : Fin n → Fin 3 → F) (R : Matrix (Fin 3) (Fin 3) F) (t : Fin 3 → F) :
    crossCov n P (fun i => R.mulVec (P i) + t) =
      R * covM n (fun i => P i - centroid n P) := by
  ext a b
  simp only [crossCov, Matrix.of_apply, Matrix.mul_apply, covM_apply]
  rw [centroid_transform hn P R t]
  have hterm : ∀ i : Fin n,
      (R.mulVec (P i) + t) a - (R.mulVec (centroid n P) + t) a =
        ∑ c, R a c * (P i c - centroid n P c) := by
    intro i
    simp only [Pi.add_apply, Matrix.mulVec, dotProduct]
    have e : (∑ c, R a c * (P i c - centroid n P c)) =
        (∑ c, R a c * P i c) - ∑ c, R a c * centroid n P c := by
      rw [← Finset.sum_sub_distrib]
      exact Finset.sum_congr rfl fun c _ => by ring
    rw [e]
    ring
  calc (1 / (n : F)) * ∑ i,
        ((R.mulVec (P i) + t) a - (R.mulVec (centroid n P) + t) a) *
          (P i b - centroid n P b)
      = (1 / (n : F)) * ∑ i,
        (∑ c, R a c * (P i c - centroid n P c)) *
          (P i b - centroid n P b) := by
        congr 1
        exact Finset.sum_congr rfl fun i _ => by rw [hterm i]
    _ = ∑ c, R a c *
        ((1 / (n : F)) * ∑ i,
          (P i c - centroid n P c) * (P i b - centroid n P b)) := by
        rw [Finset.mul_sum]
        simp only [Finset.sum_mul, Finset.mul_sum]
        rw [Finset.sum_comm]
        exact Finset.sum_congr rfl fun c _ =>
          Finset.sum_congr rfl fun i _ => by ring

/-- **C1.** For every rigid transform (rotation `R` with `det R = 1` plus
translation `t`) and every set of at least 3 non-collinear points `P`, the
transform fit on `(P, R·P + t)` — for any SVD the library may return for
the cross-covariance — returns exactly the homogeneous matrix of `(R, t)`:
the recovered rotation equals `R` and the recovered translation equals
`t`. -/
theorem C1_transform_fit_recovers_rigid_motion (n : ℕ) (hn : 3 ≤ n)
    (P : Fin n → Fin 3 → ℝ) (R : Matrix (Fin 3) (Fin 3) ℝ) (t : Fin 3 → ℝ)
    (hR : Rᵀ * R = 1) (hdetR : R.det = 1)
    (hNC : ¬ Collinear ℝ (Set.range P))
    (U : Matrix (Fin 3) (Fin 3) ℝ) (σ : Fin 3 → ℝ)
    (Vh : Matrix (Fin 3) (Fin 3) ℝ)
    (hsvd : IsSVD (crossCov n P (fun i => R.mulVec (P i) + t)) U σ Vh) :
    computeTransformFast n P (fun i => R.mulVec (P i) + t) U Vh =
      homTransform R t := by
  have hn0 : 0 < n := lt_of_lt_of_le (by norm_num) hn
  have hnF : ((n : ℝ)) ≠ 0 := Nat.cast_ne_zero.mpr hn0.ne'
  set q : Fin n → Fin 3 → ℝ := fun i => P i - centroid n P with hq
  obtain ⟨hdec, hU, hVh, hnn, hord⟩ := hsvd
  rw [crossCov_transformed hnF P R t] at hdec
  have hσ1 : σ 1 ≠ 0 := by
    intro h1
    exact hNC (collinear_of_sigma1_eq_zero hn0 P hR hdec hU hVh hnn hord.2 h1)
  have hσ0 : σ 0 ≠ 0 := by
    intro h0
    exact hσ1 (le_antisymm (h0 ▸ hord.1) (hnn 1))
  have hrot : rotFit U Vh = R :=
    rotFit_eq_of_svd (covM_transpose n q) (covM_posSemidef n q) hR hdetR
      ⟨hdec, hU, hVh, hnn, hord⟩ hσ0 hσ1
  have hRRt : R * Rᵀ = 1 := Matrix.mul_eq_one_comm.mp hR
  have htrans : transFit n P (fun i => R.mulVec (P i) + t) U Vh = t := by
    have hinner : Rᵀ.mulVec (R.mulVec (centroid n P) + t) =
        centroid n P + Rᵀ.mulVec t := by
      rw [Matrix.mulVec_add, Matrix.mulVec_mulVec, hR, Matrix.one_mulVec]
    unfold transFit rFit
    rw [hrot, centroid_transform hnF P R t, Matrix.neg_mulVec,
      Matrix.neg_mulVec, hinner]
    have harg : -(centroid n P + Rᵀ.mulVec t) + centroid n P =
        -(Rᵀ.mulVec t) := by abel
    rw [harg, Matrix.mulVec_neg, neg_neg, Matrix.mulVec_mulVec, hRRt,
      Matrix.one_mulVec]
  ext a b
  simp only [computeTransformFast, homTransform, Matrix.of_apply]
  split_ifs with h1 h2
  · rw [hrot]
  · rw [htrans]
  · rfl
  · rfl

/-- The concrete non-collinear point set used in the C1 witness: a planar
square whose centered covariance is `diag(1, 1, 0)`. -/
def ptsW : Fin 4 → Fin 3 → ℝ := ![![0, 0, 0], ![2, 0, 0], ![0, 2, 0], ![2, 2, 0]]

/-- The singular values of the witness cross-covariance. -/
def sigW : Fin 3 → ℝ := ![1, 1, 0]

theorem ptsW_not_collinear : ¬ Collinear ℝ (Set.range ptsW) := by
  intro hcol
  rw [collinear_iff_exists_forall_eq_smul_vadd] at hcol
  obtain ⟨p₀, v, hv⟩ := hcol
  obtain ⟨r0, h0⟩ := hv (ptsW 0) ⟨0, rfl⟩
  obtain ⟨r1, h1⟩ := hv (ptsW 1) ⟨1, rfl⟩
  obtain ⟨r2, h2⟩ := hv (ptsW 2) ⟨2, rfl⟩
  have c00 := congrFun h0 0
  have c01 := congrFun h0 1
  have c10 := congrFun h1 0
  have c11 := congrFun h1 1
  have c20 := congrFun h2 0
  have c21 := congrFun h2 1
  simp only [ptsW, vadd_eq_add, Pi.add_apply, Pi.smul_apply, smul_eq_mul,
    Matrix.cons_val_zero, Matrix.cons_val_one, Matrix.head_cons,
    Matrix.cons_val_two, Matrix.tail_cons] at c00 c01 c10 c11 c20 c21
  have hA0 : (r1 - r0) * v 0 = 2 := by linear_combination c00 - c10
  have hA1 : (r1 - r0) * v 1 = 0 := by linear_combination c01 - c11
  have hB0 : (r2 - r0) * v 0 = 0 := by linear_combination c00 - c20
  have hB1 : (r2 - r0) * v 1 = 2 := by linear_combination c01 - c21
  have hkey : (r1 - r0) * v 0 * ((r2 - r0) * v 1) =
      (r1 - r0) * v 1 * ((r2 - r0) * v 0) := by ring
  rw [hA0, hA1, hB0, hB1] at hkey
  norm_num at hkey

theorem crossCov_ptsW : crossCov 4 ptsW ptsW = Matrix.diagonal sigW := by
  ext a b
  fin_cases a <;> fin_cases b <;>
    simp [crossCov, centroid, Fin.sum_univ_four, ptsW, sigW,
      Matrix.diagonal] <;>
    norm_num

theorem isSVD_ptsW :
    IsSVD (crossCov 4 ptsW
      (fun i => (1 : Matrix (Fin 3) (Fin 3) ℝ).mulVec (ptsW i) + 0))
      1 sigW 1 := by
  have hP2 : (fun i => (1 : Matrix (Fin 3) (Fin 3) ℝ).mulVec (ptsW i) + 0) =
      ptsW := by
    funext i
    simp [Matrix.one_mulVec]
  refine ⟨?_, by simp, by simp, ?_, ?_, ?_⟩
  · rw [hP2, crossCov_ptsW, Matrix.one_mul, Matrix.mul_one]
  · intro j
    fin_cases j <;> norm_num [sigW]
  · norm_num [sigW]
  · norm_num [sigW]

/-- Witness for C1: the planar square `ptsW` under the identity rigid
motion, with the explicit SVD `U = 1`, `σ = (1,1,0)`, `Vh = 1` of its
cross-covariance. -/
theorem C1_transform_fit_recovers_rigid_motion_witness :
    (3 ≤ 4) ∧ ((1 : Matrix (Fin 3) (Fin 3) ℝ)ᵀ * 1 = 1) ∧
    ((1 : Matrix (Fin 3) (Fin 3) ℝ).det = 1) ∧
    (¬ Collinear ℝ (Set.range ptsW)) ∧
    IsSVD (crossCov 4 ptsW
      (fun i => (1 : Matrix (Fin 3) (Fin 3) ℝ).mulVec (ptsW i) + 0))
      1 sigW 1 ∧
    computeTransformFast 4 ptsW
      (fun i => (1 : Matrix (Fin 3) (Fin 3) ℝ).mulVec (ptsW i) + 0) 1 1 =
      homTransform 1 0 :=
  ⟨by norm_num, by simp, by simp, ptsW_not_collinear, isSVD_ptsW,
    C1_transform_fit_recovers_rigid_motion 4 (by norm_num) ptsW 1 0
      (by simp) (by simp) ptsW_not_collinear 1 sigW 1 isSVD_ptsW⟩

/-! ## `FrameToFrameRANSAC` (ransac.py, lines 92-165)

The batched SVD fit inside `perform_ransac` runs on the stored (possibly
NaN) triangulated points, so the per-minimal-set call to
`compute_transform_fast` is abstracted as the function argument `fit`; the
consensus logic is independent of the fitted values.  The random index
table drawn by `np.random.randint` is the explicit argument `rand_ids`. -/

/-- The fields of a `FrameToFrameRANSAC` instance (ransac.py lines 93-97,
157-164). -/
structure RansacEngine (F : Type) where
  camera : StereoCamera F
  ransac_iters : ℕ
  ransac_thresh : F
  num_min_set_pts : ℕ
  stereo_obs_1 : List (Fin 3 → FNum F)
  stereo_obs_2 : List (Fin 3 → FNum F)
  pts_1 : List (Fin 3 → FNum F)
  pts_2 : List (Fin 3 → FNum F)
  num_pts : ℕ

/-- `np.argmax`: index of the first maximal element (`0` on empty input). -/
def argmaxIdx : List ℕ → ℕ
  | [] => 0
  | x :: xs =>
    let i := argmaxIdx xs
    if xs.getD i 0 > x then i + 1 else 0

/-- Sampling step (ransac.py lines 104-115): gather the minimal point sets
selected by the random index table. -/
def sampleSets (pts : List (Fin 3 → FNum F)) (rand_ids : List (List ℕ)) :
    List (List (Fin 3 → FNum F)) :=
  rand_ids.map fun ids => ids.map fun j => pts.getD j (fun _ => none)

/-- Fitting step (ransac.py line 120): one candidate transform per minimal
set. -/
def ransacTransforms (e : RansacEngine F) (rand_ids : List (List ℕ))
    (fit : List (Fin 3 → FNum F) → List (Fin 3 → FNum F) →
      Matrix (Fin 4) (Fin 4) F) : List (Matrix (Fin 4) (Fin 4) F) :=
  List.zipWith fit (sampleSets e.pts_1 rand_ids) (sampleSets e.pts_2 rand_ids)

/-- Scoring step (ransac.py line 130): one inlier mask per candidate. -/
def ransacMasks (e : RansacEngine F) (rand_ids : List (List ℕ))
    (fit : List (Fin 3 → FNum F) → List (Fin 3 → FNum F) →
      Matrix (Fin 4) (Fin 4) F) : List (List Bool) :=
  (ransacTransforms e rand_ids fit).map fun T =>
    computeRansacCostFast T e.pts_1 e.stereo_obs_2 (camParams e.camera)
      e.ransac_thresh

/-- `inlier_nums = np.sum(inlier_masks_stacked, axis=1)` (ransac.py
line 136). -/
def ransacInlierNums (e : RansacEngine F) (rand_ids : List (List ℕ))
    (fit : List (Fin 3 → FNum F) → List (Fin 3 → FNum F) →
      Matrix (Fin 4) (Fin 4) F) : List ℕ :=
  (ransacMasks e rand_ids fit).map fun m => m.count true

/-- `most_inliers_idx = np.argmax(inlier_nums)` (ransac.py line 137). -/
def ransacBestIdx (e : RansacEngine F) (rand_ids : List (List ℕ))
    (fit : List (Fin 3 → FNum F) → List (Fin 3 → FNum F) →
      Matrix (Fin 4) (Fin 4) F) : ℕ :=
  argmaxIdx (ransacInlierNums e rand_ids fit)

/-- `np.where(mask)[0]` (ransac.py lines 140-141): the indices at which the
mask is true, in increasing order. -/
def trueIndices (mask : List Bool) : List ℕ :=
  (List.range mask.length).filter fun i => mask.getD i false

/-- The consensus-failure message (ransac.py lines 146-147). -/
def ransacFailureMsg : String :=
  " RANSAC failed to find more than 5 inliers. Try adjusting the thresholds."

/-- `perform_ransac` (ransac.py lines 99-155).  Returns the raised error or
the `(T_21_best, stereo_obs_1_inliers, stereo_obs_2_inliers,
inlier_indices_best)` tuple, paired with the engine state after the call
(the method reads the fields but never assigns any of them). -/
def performRansac (e : RansacEngine F) (rand_ids : List (List ℕ))
    (fit : List (Fin 3 → FNum F) → List (Fin 3 → FNum F) →
      Matrix (Fin 4) (Fin 4) F) :
    Except String (Matrix (Fin 4) (Fin 4) F × List (Fin 3 → FNum F) ×
      List (Fin 3 → FNum F) × List ℕ) × RansacEngine F :=
  let T_stacked := ransacTransforms e rand_ids fit
  let inlier_nums := ransacInlierNums e rand_ids fit
  let best := ransacBestIdx e rand_ids fit
  let T_best := T_stacked.getD best 1
  let max_inliers := inlier_nums.getD best 0
  let inlier_indices := trueIndices ((ransacMasks e rand_ids fit).getD best [])
  if max_inliers < 5 then
    (Except.error ransacFailureMsg, e)
  else
    (Except.ok (T_best,
      inlier_indices.map (fun i => e.stereo_obs_1.getD i (fun _ => none)),
      inlier_indices.map (fun i => e.stereo_obs_2.getD i (fun _ => none)),
      inlier_indices), e)

/-- `np.argmax` picks an index attaining the maximum. -/
theorem getD_argmaxIdx_ge (l : List ℕ) (j : ℕ) :
    l.getD j 0 ≤ l.getD (argmaxIdx l) 0 := by
  induction l generalizing j with
  | nil => simp [argmaxIdx]
  | cons x xs ih =>
    simp only [argmaxIdx]
    by_cases h : xs.getD (argmaxIdx xs) 0 > x
    · rw [if_pos h]
      cases j with
      | zero => simpa using le_of_lt h
      | succ k => simpa using ih k
    · rw [if_neg h]
      cases j with
      | zero => simp
      | succ k =>
        simp only [List.getD_cons_succ, List.getD_cons_zero]
        exact le_trans (ih k) (not_lt.mp h)

/-- `np.argmax` picks the first index attaining the maximum. -/
theorem getD_argmaxIdx_first (l : List ℕ) (j : ℕ) (hj : j < argmaxIdx l) :
    l.getD j 0 < l.getD (argmaxIdx l) 0 := by
  induction l generalizing j with
  | nil => simp [argmaxIdx] at hj
  | cons x xs ih =>
    simp only [argmaxIdx] at hj ⊢
    by_cases h : xs.getD (argmaxIdx xs) 0 > x
    · rw [if_pos h]
      rw [if_pos h] at hj
      cases j with
      | zero => simpa using h
      | succ k =>
        simp only [List.getD_cons_succ]
        exact ih k (Nat.lt_of_succ_lt_succ hj)
    · rw [if_neg h] at hj
      exact absurd hj (Nat.not_lt_zero j)

/-- The value at the argmax is the maximum of the list. -/
theorem getD_argmaxIdx_eq_foldr (l : List ℕ) :
    l.getD (argmaxIdx l) 0 = l.foldr max 0 := by
  induction l with
  | nil => rfl
  | cons x xs ih =>
    simp only [argmaxIdx, List.foldr_cons]
    by_cases h : xs.getD (argmaxIdx xs) 0 > x
    · rw [if_pos h]
      simp only [List.getD_cons_succ, ih]
      exact (max_eq_right (le_of_lt (ih ▸ h))).symm
    · rw [if_neg h]
      simp only [List.getD_cons_zero]
      exact (max_eq_left (ih ▸ not_lt.mp h)).symm

/-- A strict bound on every element bounds the running maximum. -/
theorem foldr_max_lt (l : List ℕ) (b : ℕ) (hb : 0 < b)
    (h : ∀ y ∈ l, y < b) : l.foldr max 0 < b := by
  induction l with
  | nil => exact hb
  | cons x xs ih =>
    simp only [List.foldr_cons]
    exact max_lt (h x (List.mem_cons_self x xs))
      (ih fun y hy => h y (List.mem_cons_of_mem x hy))

/-- **C4.** `perform_ransac` raises the consensus-failure error iff the
maximum inlier count over all fitted candidates is strictly below the
absolute constant `5`; in particular with fewer than 5 stored
correspondences it always raises.  Quantified over every random index
table and every fit oracle. -/
theorem C4_consensus_failure_iff_max_below_five (e : RansacEngine ℝ)
    (rand_ids : List (List ℕ))
    (fit : List (Fin 3 → FNum ℝ) → List (Fin 3 → FNum ℝ) →
      Matrix (Fin 4) (Fin 4) ℝ) :
    ((performRansac e rand_ids fit).1 = Except.error ransacFailureMsg ↔
      (ransacInlierNums e rand_ids fit).foldr max 0 < 5) ∧
    (e.pts_1.length < 5 →
      (performRansac e rand_ids fit).1 = Except.error ransacFailureMsg) := by
  have hmax : (ransacInlierNums e rand_ids fit).getD
      (ransacBestIdx e rand_ids fit) 0 =
      (ransacInlierNums e rand_ids fit).foldr max 0 :=
    getD_argmaxIdx_eq_foldr _
  have hiff : (performRansac e rand_ids fit).1 =
      Except.error ransacFailureMsg ↔
      (ransacInlierNums e rand_ids fit).foldr max 0 < 5 := by
    simp only [performRansac]
    by_cases h : (ransacInlierNums e rand_ids fit).getD
        (ransacBestIdx e rand_ids fit) 0 < 5
    · rw [if_pos h]
      exact iff_of_true rfl (hmax ▸ h)
    · rw [if_neg h]
      refine iff_of_false (by simp) fun hc => h ?_
      rw [hmax]
      exact hc
  refine ⟨hiff, fun hN => hiff.mpr ?_⟩
  refine foldr_max_lt _ 5 (by norm_num) ?_
  intro y hy
  obtain ⟨m, hm, rfl⟩ := List.mem_map.mp hy
  obtain ⟨T, hT, rfl⟩ := List.mem_map.mp hm
  calc (computeRansacCostFast T e.pts_1 e.stereo_obs_2 (camParams e.camera)
        e.ransac_thresh).count true
      ≤ (computeRansacCostFast T e.pts_1 e.stereo_obs_2 (camParams e.camera)
        e.ransac_thresh).length := List.count_le_length _ _
    _ ≤ e.pts_1.length := by
        rw [computeRansacCostFast, List.length_zipWith]
        exact min_le_left _ _
    _ < 5 := hN

/-- An empty engine state used to instantiate the pipeline witnesses. -/
def engineEmpty : RansacEngine ℝ := ⟨camA, 400, 5, 3, [], [], [], [], 0⟩

/-- Witness for C4: the empty correspondence batch always raises. -/
theorem C4_consensus_failure_iff_max_below_five_witness :
    (engineEmpty.pts_1.length < 5) ∧
    ((performRansac engineEmpty [] (fun _ _ => 1)).1 =
        Except.error ransacFailureMsg ↔
      (ransacInlierNums engineEmpty [] (fun _ _ => 1)).foldr max 0 < 5) ∧
    ((performRansac engineEmpty [] (fun _ _ => 1)).1 =
        Except.error ransacFailureMsg) := by
  have h := C4_consensus_failure_iff_max_below_five engineEmpty []
    (fun _ _ => 1)
  exact ⟨by norm_num [engineEmpty], h.1, h.2 (by norm_num [engineEmpty])⟩

/-- **C6.** Inliers are summed per candidate; the selected candidate
attains the maximum inlier count, strictly exceeding every earlier
candidate (first-occurrence tie-breaking); on success the returned index
list is exactly the set of indices where the selected candidate's mask is
true. -/
theorem C6_consensus_selection (e : RansacEngine ℝ)
    (rand_ids : List (List ℕ))
    (fit : List (Fin 3 → FNum ℝ) → List (Fin 3 → FNum ℝ) →
      Matrix (Fin 4) (Fin 4) ℝ) :
    ransacInlierNums e rand_ids fit =
      (ransacMasks e rand_ids fit).map (fun m => m.count true) ∧
    (∀ j, (ransacInlierNums e rand_ids fit).getD j 0 ≤
      (ransacInlierNums e rand_ids fit).getD
        (ransacBestIdx e rand_ids fit) 0) ∧
    (∀ j, j < ransacBestIdx e rand_ids fit →
      (ransacInlierNums e rand_ids fit).getD j 0 <
        (ransacInlierNums e rand_ids fit).getD
          (ransacBestIdx e rand_ids fit) 0) ∧
    (∀ T o1 o2 idxs,
      (performRansac e rand_ids fit).1 = Except.ok (T, o1, o2, idxs) →
      idxs = trueIndices ((ransacMasks e rand_ids fit).getD
        (ransacBestIdx e rand_ids fit) [])) := by
  refine ⟨rfl, fun j => getD_argmaxIdx_ge _ j,
    fun j hj => getD_argmaxIdx_first _ j hj, ?_⟩
  intro T o1 o2 idxs hok
  simp only [performRansac] at hok
  split at hok
  · exact absurd hok (by simp)
  · simp only [Except.ok.injEq, Prod.mk.injEq] at hok
    exact hok.2.2.2.symm

/-- Witness for C6 at the empty engine and index `0`. -/
theorem C6_consensus_selection_witness :
    (ransacInlierNums engineEmpty [] (fun _ _ => 1)).getD 0 0 ≤
      (ransacInlierNums engineEmpty [] (fun _ _ => 1)).getD
        (ransacBestIdx engineEmpty [] (fun _ _ => 1)) 0 :=
  (C6_consensus_selection engineEmpty [] (fun _ _ => 1)).2.1 0

/-- **C9.** `perform_ransac` never mutates the engine state: whether it
raises or returns, every stored field is unchanged after the call. -/
theorem C9_perform_ransac_preserves_state (e : RansacEngine ℝ)
    (rand_ids : List (List ℕ))
    (fit : List (Fin 3 → FNum ℝ) → List (Fin 3 → FNum ℝ) →
      Matrix (Fin 4) (Fin 4) ℝ) :
    (performRansac e rand_ids fit).2.camera = e.camera ∧
    (performRansac e rand_ids fit).2.ransac_iters = e.ransac_iters ∧
    (performRansac e rand_ids fit).2.ransac_thresh = e.ransac_thresh ∧
    (performRansac e rand_ids fit).2.num_min_set_pts = e.num_min_set_pts ∧
    (performRansac e rand_ids fit).2.stereo_obs_1 = e.stereo_obs_1 ∧
    (performRansac e rand_ids fit).2.stereo_obs_2 = e.stereo_obs_2 ∧
    (performRansac e rand_ids fit).2.pts_1 = e.pts_1 ∧
    (performRansac e rand_ids fit).2.pts_2 = e.pts_2 ∧
    (performRansac e rand_ids fit).2.num_pts = e.num_pts := by
  have h : (performRansac e rand_ids fit).2 = e := by
    simp only [performRansac]
    split <;> rfl
  rw [h]
  exact ⟨rfl, rfl, rfl, rfl, rfl, rfl, rfl, rfl, rfl⟩

/-! ## Jacobians of `project` and `triangulate`
(stereo_camera.py lines 48-72 and 98-122) -/

/-- The Jacobian entries computed by `project` for a valid entry
(stereo_camera.py lines 52-70): `one_over_z = 1/z`,
`one_over_z2 = one_over_z * one_over_z`. -/
def projectJacobianEntries (c : StereoCamera F) (pt : Fin 3 → F) :
    Matrix (Fin 3) (Fin 3) F :=
  Matrix.of
    ![![c.fu * (1 / pt 2), 0, -c.fu * pt 0 * ((1 / pt 2) * (1 / pt 2))],
      ![0, c.fv * (1 / pt 2), -c.fv * pt 1 * ((1 / pt 2) * (1 / pt 2))],
      ![0, 0, -c.fu * c.b * ((1 / pt 2) * (1 / pt 2))]]

/-- `project`'s per-point Jacobian output: the computed entries for a valid
entry, the NaN sentinel in all nine positions otherwise (stereo_camera.py
lines 49-50). -/
def projectJacobianPoint (c : StereoCamera F) (pt : Fin 3 → F) :
    Matrix (Fin 3) (Fin 3) (FNum F) :=
  if isValidMeasurement c (projectRawPoint c pt) then
    Matrix.of fun i j => some (projectJacobianEntries c pt i j)
  else
    Matrix.of fun _ _ => none

/-- The Jacobian entries computed by `triangulate` for a valid entry
(stereo_camera.py lines 102-120): `b_over_d = b/d`,
`b_over_d2 = b_over_d / d`, `fu_over_fv = fu/fv`. -/
def triangulateJacobianEntries (c : StereoCamera F) (uvd : Fin 3 → F) :
    Matrix (Fin 3) (Fin 3) F :=
  Matrix.of
    ![![c.b / uvd 2, 0, (c.cu - uvd 0) * (c.b / uvd 2 / uvd 2)],
      ![0, (c.b / uvd 2) * (c.fu / c.fv),
        (c.cv - uvd 1) * (c.b / uvd 2 / uvd 2) * (c.fu / c.fv)],
      ![0, 0, -c.fu * (c.b / uvd 2 / uvd 2)]]

/-- `triangulate`'s per-point Jacobian output: computed entries when the
input observation is valid, the NaN sentinel in all nine positions
otherwise (stereo_camera.py lines 99-100). -/
def triangulateJacobianPoint (c : StereoCamera F) (uvd : Fin 3 → F) :
    Matrix (Fin 3) (Fin 3) (FNum F) :=
  if isValidMeasurement c uvd then
    Matrix.of fun i j => some (triangulateJacobianEntries c uvd i j)
  else
    Matrix.of fun _ _ => none

/-- The claim's literal form of the projection Jacobian:
`[[fu/z, 0, -fu·x/z²], [0, fv/z, -fv·y/z²], [0, 0, -fu·b/z²]]`. -/
def projectJacobianSpec (c : StereoCamera F) (pt : Fin 3 → F) :
    Matrix (Fin 3) (Fin 3) F :=
  Matrix.of
    ![![c.fu / pt 2, 0, -(c.fu * pt 0) / pt 2 ^ 2],
      ![0, c.fv / pt 2, -(c.fv * pt 1) / pt 2 ^ 2],
      ![0, 0, -(c.fu * c.b) / pt 2 ^ 2]]

theorem hasDerivAt_mul_inv (a : ℝ) {x : ℝ} (hx : x ≠ 0) :
    HasDerivAt (fun s => a * (1 / s)) (a * -((x ^ 2)⁻¹)) x := by
  have hf : (fun s : ℝ => a * (1 / s)) = fun s => a * s⁻¹ := by
    funext s
    rw [one_div]
  rw [hf]
  exact (hasDerivAt_inv hx).const_mul a

theorem hasDerivAt_mul_div (a b : ℝ) {x : ℝ} (hx : x ≠ 0) :
    HasDerivAt (fun s => a * (b / s)) (a * (b * -((x ^ 2)⁻¹))) x := by
  have hf : (fun s : ℝ => a * (b / s)) = fun s => a * (b * s⁻¹) := by
    funext s
    rw [div_eq_mul_inv]
  rw [hf]
  exact ((hasDerivAt_inv hx).const_mul b).const_mul a

/-- The nine partial derivatives of the projection formula are exactly the
entries computed by `project`. -/
theorem projectJacobian_hasDerivAt (c : StereoCamera ℝ) (pt : Fin 3 → ℝ)
    (hz : pt 2 ≠ 0) (i j : Fin 3) :
    HasDerivAt (fun s => projectRawPoint c (Function.update pt j s) i)
      (projectJacobianEntries c pt i j) (pt j) := by
  fin_cases i <;> fin_cases j
  · show HasDerivAt
        (fun s => projectRawPoint c (Function.update pt 0 s) 0)
        (projectJacobianEntries c pt 0 0) (pt 0)
    have hf : (fun s => projectRawPoint c (Function.update pt 0 s) 0) =
        fun s => c.fu * s * (1 / pt 2) + c.cu := by
      funext s
      simp [projectRawPoint, Function.update_apply]
    rw [hf]
    have h := (((hasDerivAt_id (pt 0)).const_mul c.fu).mul_const
      (1 / pt 2)).add_const c.cu
    convert h using 1
    simp [projectJacobianEntries]
  · show HasDerivAt
        (fun s => projectRawPoint c (Function.update pt 1 s) 0)
        (projectJacobianEntries c pt 0 1) (pt 1)
    have hf : (fun s => projectRawPoint c (Function.update pt 1 s) 0) =
        fun s => c.fu * pt 0 * (1 / pt 2) + c.cu := by
      funext s
      simp [projectRawPoint, Function.update_apply]
    rw [hf]
    convert hasDerivAt_const (pt 1) (c.fu * pt 0 * (1 / pt 2) + c.cu) using 1
  · show HasDerivAt
        (fun s => projectRawPoint c (Function.update pt 2 s) 0)
        (projectJacobianEntries c pt 0 2) (pt 2)
    have hf : (fun s => projectRawPoint c (Function.update pt 2 s) 0) =
        fun s => c.fu * pt 0 * (1 / s) + c.cu := by
      funext s
      simp [projectRawPoint, Function.update_apply]
    rw [hf]
    have h := (hasDerivAt_mul_inv (c.fu * pt 0) hz).add_const c.cu
    convert h using 1
    simp only [projectJacobianEntries, Matrix.of_apply, Matrix.cons_val_zero,
      Matrix.cons_val_one, Matrix.cons_val_two, Matrix.head_cons,
      Matrix.tail_cons]
    ring
  · show HasDerivAt
        (fun s => projectRawPoint c (Function.update pt 0 s) 1)
        (projectJacobianEntries c pt 1 0) (pt 0)
    have hf : (fun s => projectRawPoint c (Function.update pt 0 s) 1) =
        fun s => c.fv * pt 1 * (1 / pt 2) + c.cv := by
      funext s
      simp [projectRawPoint, Function.update_apply]
    rw [hf]
    convert hasDerivAt_const (pt 0) (c.fv * pt 1 * (1 / pt 2) + c.cv) using 1
  · show HasDerivAt
        (fun s => projectRawPoint c (Function.update pt 1 s) 1)
        (projectJacobianEntries c pt 1 1) (pt 1)
    have hf : (fun s => projectRawPoint c (Function.update pt 1 s) 1) =
        fun s => c.fv * s * (1 / pt 2) + c.cv := by
      funext s
      simp [projectRawPoint, Function.update_apply]
    rw [hf]
    have h := (((hasDerivAt_id (pt 1)).const_mul c.fv).mul_const
      (1 / pt 2)).add_const c.cv
    convert h using 1
    simp [projectJacobianEntries]
  · show HasDerivAt
        (fun s => projectRawPoint c (Function.update pt 2 s) 1)
        (projectJacobianEntries c pt 1 2) (pt 2)
    have hf : (fun s => projectRawPoint c (Function.update pt 2 s) 1) =
        fun s => c.fv * pt 1 * (1 / s) + c.cv := by
      funext s
      simp [projectRawPoint, Function.update_apply]
    rw [hf]
    have h := (hasDerivAt_mul_inv (c.fv * pt 1) hz).add_const c.cv
    convert h using 1
    simp only [projectJacobianEntries, Matrix.of_apply, Matrix.cons_val_zero,
      Matrix.cons_val_one, Matrix.cons_val_two, Matrix.head_cons,
      Matrix.tail_cons]
    ring
  · show HasDerivAt
        (fun s => projectRawPoint c (Function.update pt 0 s) 2)
        (projectJacobianEntries c pt 2 0) (pt 0)
    have hf : (fun s => projectRawPoint c (Function.update pt 0 s) 2) =
        fun s => c.fu * c.b * (1 / pt 2) := by
      funext s
      simp [projectRawPoint, Function.update_apply]
    rw [hf]
    convert hasDerivAt_const (pt 0) (c.fu * c.b * (1 / pt 2)) using 1
  · show HasDerivAt
        (fun s => projectRawPoint c (Function.update pt 1 s) 2)
        (projectJacobianEntries c pt 2 1) (pt 1)
    have hf : (fun s => projectRawPoint c (Function.update pt 1 s) 2) =
        fun s => c.fu * c.b * (1 / pt 2) := by
      funext s
      simp [projectRawPoint, Function.update_apply]
    rw [hf]
    convert hasDerivAt_const (pt 1) (c.fu * c.b * (1 / pt 2)) using 1
  · show HasDerivAt
        (fun s => projectRawPoint c (Function.update pt 2 s) 2)
        (projectJacobianEntries c pt 2 2) (pt 2)
    have hf : (fun s => projectRawPoint c (Function.update pt 2 s) 2) =
        fun s => c.fu * c.b * (1 / s) := by
      funext s
      simp [projectRawPoint, Function.update_apply]
    rw [hf]
    have h := hasDerivAt_mul_inv (c.fu * c.b) hz
    convert h using 1
    simp only [projectJacobianEntries, Matrix.of_apply, Matrix.cons_val_zero,
      Matrix.cons_val_one, Matrix.cons_val_two, Matrix.head_cons,
      Matrix.tail_cons]
    ring

/-- The nine partial derivatives of the triangulation formula are exactly
the entries computed by `triangulate`. -/
theorem triangulateJacobian_hasDerivAt (c : StereoCamera ℝ)
    (uvd : Fin 3 → ℝ) (hd : uvd 2 ≠ 0) (i j : Fin 3) :
    HasDerivAt (fun s => triangulateRawPoint c (Function.update uvd j s) i)
      (triangulateJacobianEntries c uvd i j) (uvd j) := by
  fin_cases i <;> fin_cases j
  · show HasDerivAt
        (fun s => triangulateRawPoint c (Function.update uvd 0 s) 0)
        (triangulateJacobianEntries c uvd 0 0) (uvd 0)
    have hf : (fun s => triangulateRawPoint c (Function.update uvd 0 s) 0) =
        fun s => (s - c.cu) * (c.b / uvd 2) := by
      funext s
      simp [triangulateRawPoint, Function.update_apply]
    rw [hf]
    have h := ((hasDerivAt_id (uvd 0)).sub_const c.cu).mul_const
      (c.b / uvd 2)
    convert h using 1
    simp only [triangulateJacobianEntries, Matrix.of_apply,
      Matrix.cons_val_zero, Matrix.cons_val_one, Matrix.cons_val_two,
      Matrix.head_cons, Matrix.tail_cons]
    ring
  · show HasDerivAt
        (fun s => triangulateRawPoint c (Function.update uvd 1 s) 0)
        (triangulateJacobianEntries c uvd 0 1) (uvd 1)
    have hf : (fun s => triangulateRawPoint c (Function.update uvd 1 s) 0) =
        fun s => (uvd 0 - c.cu) * (c.b / uvd 2) := by
      funext s
      simp [triangulateRawPoint, Function.update_apply]
    rw [hf]
    convert hasDerivAt_const (uvd 1) ((uvd 0 - c.cu) * (c.b / uvd 2)) using 1
  · show HasDerivAt
        (fun s => triangulateRawPoint c (Function.update uvd 2 s) 0)
        (triangulateJacobianEntries c uvd 0 2) (uvd 2)
    have hf : (fun s => triangulateRawPoint c (Function.update uvd 2 s) 0) =
        fun s => (uvd 0 - c.cu) * (c.b / s) := by
      funext s
      simp [triangulateRawPoint, Function.update_apply]
    rw [hf]
    have h := hasDerivAt_mul_div (uvd 0 - c.cu) c.b hd
    convert h using 1
    simp only [triangulateJacobianEntries, Matrix.of_apply,
      Matrix.cons_val_zero, Matrix.cons_val_one, Matrix.cons_val_two,
      Matrix.head_cons, Matrix.tail_cons]
    ring
  · show HasDerivAt
        (fun s => triangulateRawPoint c (Function.update uvd 0 s) 1)
        (triangulateJacobianEntries c uvd 1 0) (uvd 0)
    have hf : (fun s => triangulateRawPoint c (Function.update uvd 0 s) 1) =
        fun s => (uvd 1 - c.cv) * (c.b / uvd 2) * (c.fu / c.fv) := by
      funext s
      simp [triangulateRawPoint, Function.update_apply]
    rw [hf]
    convert hasDerivAt_const (uvd 0)
      ((uvd 1 - c.cv) * (c.b / uvd 2) * (c.fu / c.fv)) using 1
  · show HasDerivAt
        (fun s => triangulateRawPoint c (Function.update uvd 1 s) 1)
        (triangulateJacobianEntries c uvd 1 1) (uvd 1)
    have hf : (fun s => triangulateRawPoint c (Function.update uvd 1 s) 1) =
        fun s => (s - c.cv) * (c.b / uvd 2) * (c.fu / c.fv) := by
      funext s
      simp [triangulateRawPoint, Function.update_apply]
    rw [hf]
    have h := (((hasDerivAt_id (uvd 1)).sub_const c.cv).mul_const
      (c.b / uvd 2)).mul_const (c.fu / c.fv)
    convert h using 1
    simp only [triangulateJacobianEntries, Matrix.of_apply,
      Matrix.cons_val_zero, Matrix.cons_val_one, Matrix.cons_val_two,
      Matrix.head_cons, Matrix.tail_cons]
    ring
  · show HasDerivAt
        (fun s => triangulateRawPoint c (Function.update uvd 2 s) 1)
        (triangulateJacobianEntries c uvd 1 2) (uvd 2)
    have hf : (fun s => triangulateRawPoint c (Function.update uvd 2 s) 1) =
        fun s => (uvd 1 - c.cv) * (c.b / s) * (c.fu / c.fv) := by
      funext s
      simp [triangulateRawPoint, Function.update_apply]
    rw [hf]
    have h := (hasDerivAt_mul_div (uvd 1 - c.cv) c.b hd).mul_const
      (c.fu / c.fv)
    convert h using 1
    simp only [triangulateJacobianEntries, Matrix.of_apply,
      Matrix.cons_val_zero, Matrix.cons_val_one, Matrix.cons_val_two,
      Matrix.head_cons, Matrix.tail_cons]
    ring
  · show HasDerivAt
        (fun s => triangulateRawPoint c (Function.update uvd 0 s) 2)
        (triangulateJacobianEntries c uvd 2 0) (uvd 0)
    have hf : (fun s => triangulateRawPoint c (Function.update uvd 0 s) 2) =
        fun s => c.fu * (c.b / uvd 2) := by
      funext s
      simp [triangulateRawPoint, Function.update_apply]
    rw [hf]
    convert hasDerivAt_const (uvd 0) (c.fu * (c.b / uvd 2)) using 1
  · show HasDerivAt
        (fun s => triangulateRawPoint c (Function.update uvd 1 s) 2)
        (triangulateJacobianEntries c uvd 2 1) (uvd 1)
    have hf : (fun s => triangulateRawPoint c (Function.update uvd 1 s) 2) =
        fun s => c.fu * (c.b / uvd 2) := by
      funext s
      simp [triangulateRawPoint, Function.update_apply]
    rw [hf]
    convert hasDerivAt_const (uvd 1) (c.fu * (c.b / uvd 2)) using 1
  · show HasDerivAt
        (fun s => triangulateRawPoint c (Function.update uvd 2 s) 2)
        (triangulateJacobianEntries c uvd 2 2) (uvd 2)
    have hf : (fun s => triangulateRawPoint c (Function.update uvd 2 s) 2) =
        fun s => c.fu * (c.b / s) := by
      funext s
      simp [triangulateRawPoint, Function.update_apply]
    rw [hf]
    have h := hasDerivAt_mul_div c.fu c.b hd
    convert h using 1
    simp only [triangulateJacobianEntries, Matrix.of_apply,
      Matrix.cons_val_zero, Matrix.cons_val_one, Matrix.cons_val_two,
      Matrix.head_cons, Matrix.tail_cons]
    ring

/-- **C8.** When Jacobians are requested, `project` returns for every valid
entry exactly `[[fu/z, 0, -fu·x/z²], [0, fv/z, -fv·y/z²], [0, 0,
-fu·b/z²]]`, the true partial-derivative matrix of `(u,v,d)` w.r.t.
`(x,y,z)`; `triangulate` returns the true partials of `(x,y,z)` w.r.t.
`(u,v,d)`; and invalid entries are NaN-filled in all nine Jacobian
positions. -/
theorem C8_jacobians_exact_partials_nan_filled (c : StereoCamera ℝ)
    (pt obs : Fin 3 → ℝ) :
    (isValidMeasurement c (projectRawPoint c pt) = true →
      (∀ i j, projectJacobianPoint c pt i j =
        some (projectJacobianEntries c pt i j)) ∧
      projectJacobianEntries c pt = projectJacobianSpec c pt ∧
      (∀ i j, HasDerivAt
        (fun s => projectRawPoint c (Function.update pt j s) i)
        (projectJacobianEntries c pt i j) (pt j))) ∧
    (isValidMeasurement c (projectRawPoint c pt) = false →
      ∀ i j, projectJacobianPoint c pt i j = none) ∧
    (isValidMeasurement c obs = true →
      (∀ i j, triangulateJacobianPoint c obs i j =
        some (triangulateJacobianEntries c obs i j)) ∧
      (∀ i j, HasDerivAt
        (fun s => triangulateRawPoint c (Function.update obs j s) i)
        (triangulateJacobianEntries c obs i j) (obs j))) ∧
    (isValidMeasurement c obs = false →
      ∀ i j, triangulateJacobianPoint c obs i j = none) := by
  refine ⟨fun hv => ?_, fun hv => ?_, fun hv => ?_, fun hv => ?_⟩
  · have hdpos : 0 < projectRawPoint c pt 2 :=
      ((isValidMeasurement_eq_true_iff c _).mp hv).2.2
    have hz : pt 2 ≠ 0 := by
      intro h0
      simp [projectRawPoint, h0] at hdpos
    refine ⟨?_, ?_, projectJacobian_hasDerivAt c pt hz⟩
    · intro i j
      rw [projectJacobianPoint, if_pos hv]
      rfl
    · ext i j
      fin_cases i <;> fin_cases j <;>
        simp only [projectJacobianEntries, projectJacobianSpec,
          Matrix.of_apply, Matrix.cons_val_zero, Matrix.cons_val_one,
          Matrix.cons_val_two, Matrix.head_cons, Matrix.tail_cons] <;>
        ring_nf
  · intro i j
    rw [projectJacobianPoint, if_neg (by simp [hv])]
    rfl
  · have hdpos : 0 < obs 2 :=
      ((isValidMeasurement_eq_true_iff c _).mp hv).2.2
    refine ⟨?_, triangulateJacobian_hasDerivAt c obs (ne_of_gt hdpos)⟩
    intro i j
    rw [triangulateJacobianPoint, if_pos hv]
    rfl
  · intro i j
    rw [triangulateJacobianPoint, if_neg (by simp [hv])]
    rfl

/-- Witness for C8 at the concrete camera `camA` and the valid point and
observation `(1,1,1)`. -/
theorem C8_jacobians_exact_partials_nan_filled_witness :
    (isValidMeasurement camA (projectRawPoint camA ![1, 1, 1]) = true) ∧
    (projectJacobianPoint camA ![1, 1, 1] 0 0 =
      some (projectJacobianEntries camA ![1, 1, 1] 0 0)) ∧
    (isValidMeasurement camA (![1, 1, 1] : Fin 3 → ℝ) = true) ∧
    (triangulateJacobianPoint camA ![1, 1, 1] 0 0 =
      some (triangulateJacobianEntries camA ![1, 1, 1] 0 0)) := by
  have hraw : projectRawPoint camA ![1, 1, 1] = ![1, 1, 1] := by
    funext k
    fin_cases k <;> norm_num [projectRawPoint, camA]
  have hvalid : isValidMeasurement camA (![1, 1, 1] : Fin 3 → ℝ) = true := by
    rw [isValidMeasurement_eq_true_iff]
    norm_num [camA]
  have hv1 : isValidMeasurement camA (projectRawPoint camA ![1, 1, 1]) =
      true := by
    rw [hraw]
    exact hvalid
  have h := C8_jacobians_exact_partials_nan_filled camA ![1, 1, 1] ![1, 1, 1]
  exact ⟨hv1, (h.1 hv1).1 0 0, hvalid, (h.2.2.1 hvalid).1 0 0⟩

end PySlam
